import Mathlib

/-!
A verification development for the three-valued BDD engine of
`src/cudd/cuddBddUnknown.c` (the file appears twice in the repository;
the copy under `src/cudd/` is the superset and is taken as authoritative).

Shallow embedding conventions
=============================

* An `Edge` is a pair of a node id and a complement bit, mirroring the
  tagged-pointer representation `DdNode *` with the complement in bit 0.
  Node id `0` is the terminal `DD_ONE`, node id `1` is the terminal
  `DD_UNKNOWN`; the constant `0` is the complement edge to `DD_ONE`.
  Internal nodes have ids `2, 3, ...`, namely position in the manager's
  node list plus `2`.  Hash-consing makes pointer equality of the C code
  coincide with equality of `(id, complement)` pairs, which is how the
  many `==` pointer tests of the source are interpreted.
* The manager (`Mgr`) carries the unique table (`nodes`), the set of ids
  whose `MAXREF` flag is set (`flags`, duplicate-free by construction),
  the variable order `perm` and an optional capacity `cap`; when the
  capacity is exhausted `cuddUniqueInter` fails, returning the model's
  `none` for the C `NULL` (out-of-memory, spec section 7 outcome 3).
  Dynamic reordering and timeouts never trigger in the model, and the
  memoization cache of the Substrate is modelled as empty (every
  `cuddCacheLookup` misses and `cuddCacheInsert` is a no-op), which is
  the state of a fresh manager.
* The recursive procedures take a `fuel` argument; `none` at the outer
  `Option` layer means the fuel ran out (a model artefact: the C
  recursions terminate structurally on the DAG).  The inner
  `Option Edge` is the C result pointer, `none` being `NULL`.
* The out-parameters `*nodesConsumed` / `*resultReduced` are returned as
  the last two components.  Every call site in the C file passes a fresh
  accumulator initialised to `0`, so returning the delta added by the
  call is an exact model.
* `unsigned int` arithmetic: the only subtraction that could wrap is
  modelled by `wsub`, explicit wrap-around modulo `2 ^ 32`.
* The C pointer comparison `f > g` (used to normalise commutative
  argument pairs) is modelled by comparing `2 * id + complement`, a
  fixed consistent address order.
-/

/-- The three truth values: `1`, `0` and `⊥` (unknown). -/
inductive V3 where
  | one : V3
  | zero : V3
  | bot : V3
deriving DecidableEq, Repr

/-- Kleene negation; `⊥` is its own complement. -/
def neg3 : V3 → V3
  | V3.one => V3.zero
  | V3.zero => V3.one
  | V3.bot => V3.bot

/-- Kleene conjunction. -/
def and3 : V3 → V3 → V3
  | V3.zero, _ => V3.zero
  | _, V3.zero => V3.zero
  | V3.one, V3.one => V3.one
  | _, _ => V3.bot

/-- Kleene disjunction. -/
def or3 (a b : V3) : V3 := neg3 (and3 (neg3 a) (neg3 b))

/-- Kleene exclusive or: any `⊥` operand yields `⊥`. -/
def xor3 : V3 → V3 → V3
  | V3.bot, _ => V3.bot
  | _, V3.bot => V3.bot
  | V3.one, V3.one => V3.zero
  | V3.zero, V3.zero => V3.zero
  | _, _ => V3.one

/-- Kleene if-then-else, read as `(f ∧ g) ∨ (¬f ∧ h)`. -/
def ite3 (a b c : V3) : V3 := or3 (and3 a b) (and3 (neg3 a) c)

/-- An edge: target node id plus complement bit (`DdNode *` with bit 0). -/
structure Edge where
  id : Nat
  c : Bool
deriving DecidableEq, Repr

/-- An internal node `(var_index, then_edge, else_edge)`. -/
structure Node where
  idx : Nat
  t : Edge
  e : Edge
deriving DecidableEq, Repr

/-- The edge to the terminal `DD_ONE`. -/
def oneE : Edge := ⟨0, false⟩

/-- The constant `0`, encoded as the complement edge to `DD_ONE`. -/
def zeroE : Edge := ⟨0, true⟩

/-- The edge to the terminal `DD_UNKNOWN`. -/
def unkE : Edge := ⟨1, false⟩

/-- `Cudd_Not`: flip the complement bit. -/
def notE (e : Edge) : Edge := ⟨e.id, !e.c⟩

/-- `Cudd_NotCond`: complement the edge when the condition holds. -/
def notCondE (e : Edge) (b : Bool) : Edge := if b then notE e else e

/-- `Cudd_Regular`: strip the complement bit. -/
def regularE (e : Edge) : Edge := ⟨e.id, false⟩

/-- `Cudd_IsComplement`. -/
def isCompE (e : Edge) : Bool := e.c

/-- The numeric value of the tagged pointer, used for the C comparison
`f > g`: regular address ordered by allocation, complement in bit 0. -/
def ptrVal (e : Edge) : Nat := 2 * e.id + (if e.c then 1 else 0)

/-- `CUDD_CONST_INDEX`, the variable index stored on terminal nodes. -/
def CUDD_CONST_INDEX : Nat := 2 ^ 32 - 1

/-- The C `INT_MAX`, the pseudo-level of the `⊥` terminal. -/
def INTMAX : Nat := 2 ^ 31 - 1

/-- The manager: unique table, `MAXREF` flag set, variable order and
an optional allocation capacity (`none` = unbounded memory). -/
structure Mgr where
  nodes : List Node
  flags : List Nat
  perm : Nat → Nat
  cap : Option Nat

/-- Fetch the node of a (regular) id; id `0`/`1` are terminals and ids
beyond the table are dangling, both give a junk node that well-formed
executions never read. -/
def getN (m : Mgr) (id : Nat) : Node := (m.nodes[id - 2]?).getD ⟨0, oneE, oneE⟩

/-- The `index` field read through a regular pointer: `CUDD_CONST_INDEX`
on terminals, the stored variable index on internal nodes. -/
def nodeIndex (m : Mgr) (id : Nat) : Nat :=
  if id < 2 then CUDD_CONST_INDEX else (getN m id).idx

/-- `DD_MAXREF_IS_FLAG_SET` on the node with the given id. -/
def flagged (m : Mgr) (id : Nat) : Bool := id ∈ m.flags

/-- `DD_MAXREF_SET_FLAG` on the node with the given id. -/
def setFlag (m : Mgr) (id : Nat) : Mgr := { m with flags := id :: m.flags }

/-- Position of the first node equal to `nd` in the table. -/
def findNode : List Node → Node → Option Nat
  | [], _ => none
  | x :: xs, nd => if x = nd then some 0 else (findNode xs nd).map (· + 1)

/-- `cuddUniqueInter`: hash-consed node construction.  Returns the edge
to an existing node with the same triple, else appends a fresh node;
allocation fails (C `NULL`) when it would exceed the capacity. -/
def cuddUniqueInter (m : Mgr) (idx : Nat) (t e : Edge) : Option Edge × Mgr :=
  match findNode m.nodes ⟨idx, t, e⟩ with
  | some i => (some ⟨i + 2, false⟩, m)
  | none =>
    match m.cap with
    | some cp =>
      if m.nodes.length + 1 > cp then (none, m)
      else (some ⟨m.nodes.length + 2, false⟩,
            { m with nodes := m.nodes ++ [⟨idx, t, e⟩] })
    | none => (some ⟨m.nodes.length + 2, false⟩,
               { m with nodes := m.nodes ++ [⟨idx, t, e⟩] })

/-- Value of the regular node `id` under the total assignment `σ`.
Recursion is on the id; the bound checks are satisfied whenever the
table is well formed (children point to earlier nodes). -/
def evalN (ns : List Node) (σ : Nat → Bool) (id : Nat) : V3 :=
  if id = 0 then V3.one
  else if id = 1 then V3.bot
  else
    match ns[id - 2]? with
    | none => V3.bot
    | some nd =>
      let vt := if h : nd.t.id < id then
          (if nd.t.c then neg3 (evalN ns σ nd.t.id) else evalN ns σ nd.t.id)
        else V3.bot
      let ve := if h : nd.e.id < id then
          (if nd.e.c then neg3 (evalN ns σ nd.e.id) else evalN ns σ nd.e.id)
        else V3.bot
      if σ nd.idx then vt else ve
termination_by id
decreasing_by
  all_goals exact h

/-- Denotation of an edge under a total assignment. -/
def evalE (ns : List Node) (σ : Nat → Bool) (e : Edge) : V3 :=
  if e.c then neg3 (evalN ns σ e.id) else evalN ns σ e.id

/-- Internal node ids reachable from an edge (the edge's own target
included when internal). -/
def reachF (ns : List Node) (e : Edge) : Finset Nat :=
  if e.id < 2 then ∅
  else
    match ns[e.id - 2]? with
    | none => {e.id}
    | some nd =>
      insert e.id
        ((if h : nd.t.id < e.id then reachF ns nd.t else ∅) ∪
         (if h : nd.e.id < e.id then reachF ns nd.e else ∅))
termination_by e.id
decreasing_by
  all_goals exact h

/-- An edge is valid when its target lies inside the table. -/
def ValidE (m : Mgr) (e : Edge) : Prop := e.id < m.nodes.length + 2

/-- Check of the per-node store invariants: children allocated earlier
(hence the DAG is acyclic), reducedness `t ≠ e`, canonical form (`t`
regular, and not `t = ⊥` with complemented `e`), no stored edge is the
complement of `⊥`, the variable index is not the terminal index, and
its level is below the pseudo-level of `⊥`. -/
def nodeOK (m : Mgr) (i : Nat) (nd : Node) : Bool :=
  decide (nd.t.id < i + 2) && decide (nd.e.id < i + 2) &&
  (nd.t != nd.e) && (!nd.t.c) && !(nd.t == unkE && nd.e.c) &&
  (nd.t != notE unkE) && (nd.e != notE unkE) &&
  decide (nd.idx < CUDD_CONST_INDEX) && decide (m.perm nd.idx < INTMAX)

/-- Well-formedness of the manager: every stored node satisfies
`nodeOK` and the unique table holds no duplicate triples. -/
def wfCheck (m : Mgr) : Bool :=
  ((List.range m.nodes.length).all fun i =>
    match m.nodes[i]? with
    | some nd => nodeOK m i nd
    | none => true) && decide m.nodes.Nodup

/-- A traversal heuristic (`DD_TRAV_HEU`): signed decision from up to
three operands; negative means then-branch first. -/
def Heu : Type := Mgr → Edge → Option Edge → Option Edge → Int

/-- `DD_MIN_NODE_LIMIT(x) = (x < 1 ? 0 : x - 1)` from the source. -/
def DD_MIN_NODE_LIMIT (x : Nat) : Nat := if x < 1 then 0 else x - 1

/-- Subtraction of C `unsigned int`s: wraps around modulo `2 ^ 32`. -/
def wsub (a b : Nat) : Nat := if b ≤ a then a - b else a + 2 ^ 32 - b

/-- Result of a budgeted recursion: the C result pointer (`none` is the
C `NULL`), the updated manager, and the deltas added to the out
parameters `*nodesConsumed` and `*resultReduced`. -/
abbrev ApplyRes := Option (Option Edge × Mgr × Nat × Bool)

/-- `clearMaxrefFlagRecur`: follow the returned DAG, clearing `MAXREF`
and stopping at constants and at unflagged nodes.  The fuel is a model
artefact; `flags.length + 1` always suffices since every recursive step
first erases a flag. -/
def clearMaxref (ns : List Node) : Nat → List Nat → Edge → List Nat
  | 0, flags, _ => flags
  | fuel + 1, flags, f =>
    if f.id < 2 then flags
    else if f.id ∉ flags then flags
    else
      let nd := ((ns[f.id - 2]?).getD ⟨0, oneE, oneE⟩)
      let fl1 := flags.erase f.id
      let fl2 := clearMaxref ns fuel fl1 nd.t
      clearMaxref ns fuel fl2 nd.e

/-- The canonical-form maintenance around `cuddUniqueInter`, shared
verbatim by the combining steps of the reduce, And and Xor recursions
(src/cudd/cuddBddUnknown.c:624-633, 1062-1071, 1253-1262): complement
is pulled off the then-edge (negating the else-edge unless it is `⊥`),
and a `⊥` then-edge with complemented else-edge is flipped; the second
component is the C `complementRes`. -/
def reducedApplyCombine (m : Mgr) (index : Nat) (t e : Edge) :
    (Option Edge × Mgr) × Bool :=
  if t.c then
    (cuddUniqueInter m index (notE t) (notCondE e (e != unkE)), true)
  else if t = unkE ∧ e.c then
    (cuddUniqueInter m index t (notE e), true)
  else (cuddUniqueInter m index t e, false)

/-- `cuddBddReduceByNodeLimitRecur` (src/cudd/cuddBddUnknown.c:549-653).
Descends `f`, returning each already-flagged node unchanged, collapsing
to `⊥` when the budget is zero, and billing each node freshly flagged
at the combining step.  The second cofactor receives
`limit - 1 - *nodesConsumed` with C unsigned subtraction (`wsub`).
The C duplicates the body for the two heuristic decisions; the model
merges them, `rec1` holding the pair recursed on first. -/
def cuddBddReduceByNodeLimitRecur (fuel : Nat) (m : Mgr) (f : Edge)
    (heu : Heu) (limit : Nat) : ApplyRes :=
  match fuel with
  | 0 => none
  | fuel + 1 =>
    if f = oneE ∨ f = zeroE ∨ f = unkE then some (some f, m, 0, false)
    else
      let F := regularE f
      if flagged m F.id then some (some f, m, 0, false)
      else if limit = 0 then some (some unkE, m, 0, true)
      else
        let nd := getN m F.id
        let bt := notCondE nd.t (f.c && (nd.t != unkE))
        let be := notCondE nd.e (f.c && (nd.e != unkE))
        let decision := heu m f none none
        let rec1 := if decision < 0 then (bt, be) else (be, bt)
        match cuddBddReduceByNodeLimitRecur fuel m rec1.1 heu (limit - 1) with
        | none => none
        | some (none, m1, _, _) => some (none, m1, 0, false)
        | some (some a, m1, c1, r1) =>
          match cuddBddReduceByNodeLimitRecur fuel m1 rec1.2 heu
              (wsub (limit - 1) c1) with
          | none => none
          | some (none, m2, _, _) => some (none, m2, c1, false)
          | some (some b, m2, c2, r2) =>
            let t := if decision < 0 then a else b
            let e := if decision < 0 then b else a
            if t = e then some (some t, m2, c1 + c2, r1 || r2)
            else
              match reducedApplyCombine m2 nd.idx t e with
              | ((none, m3), _) => some (none, m3, c1 + c2, r1 || r2)
              | ((some r, m3), compl) =>
                if flagged m3 r.id then
                  some (some (if compl then notE r else r), m3,
                        c1 + c2, r1 || r2)
                else
                  some (some (if compl then notE r else r),
                        setFlag m3 r.id, c1 + c2 + 1, r1 || r2)

/-- `Cudd_BddReduceByNodeLimit` (src/cudd/cuddBddUnknown.c:181-192): run
the recursion from fresh accumulators, then sweep the flags of the
returned DAG.  The C wrapper returns only the edge; the model also
exposes the final accumulators for the specifications below. -/
def Cudd_BddReduceByNodeLimit (fuel : Nat) (m : Mgr) (f : Edge)
    (heu : Heu) (limit : Nat) : ApplyRes :=
  match cuddBddReduceByNodeLimitRecur fuel m f heu limit with
  | none => none
  | some (res, m1, c, red) =>
    let fl :=
      match res with
      | none => m1.flags
      | some r => clearMaxref m1.nodes (m1.flags.length + 1) m1.flags r
    some (res, { m1 with flags := fl }, c, red)

/-- The commutative-pair normalization `if (f > g) swap` shared by the
And and Xor engines (src/cudd/cuddBddUnknown.c:956-962, 1140-1146). -/
def pointerOrder (f g : Edge) : Edge × Edge :=
  if ptrVal f > ptrVal g then (g, f) else (f, g)

/-- Top levels and cofactors of the And engine
(src/cudd/cuddBddUnknown.c:986-1023): the branching index, then the
cofactors of `f`, then those of `g`; a complemented operand pushes the
complement onto its cofactors unless they are `⊥`. -/
def andCofactors (m : Mgr) (f g : Edge) :
    Nat × (Edge × Edge) × (Edge × Edge) :=
  let topf := if regularE f = unkE then INTMAX else m.perm (getN m f.id).idx
  let topg := if regularE g = unkE then INTMAX else m.perm (getN m g.id).idx
  let fc :=
    if topf ≤ topg then
      ((getN m f.id).idx,
       notCondE (getN m f.id).t (f.c && ((getN m f.id).t != unkE)),
       notCondE (getN m f.id).e (f.c && ((getN m f.id).e != unkE)))
    else ((getN m g.id).idx, f, f)
  let gc :=
    if topg ≤ topf then
      (notCondE (getN m g.id).t (g.c && ((getN m g.id).t != unkE)),
       notCondE (getN m g.id).e (g.c && ((getN m g.id).e != unkE)))
    else (g, g)
  (fc.1, (fc.2.1, fc.2.2), gc)

/-- `cuddBddAndReducedRecur` (src/cudd/cuddBddUnknown.c:898-1105).  The
sequential C terminal tests are flattened: `F == G` with `f != g` and
`F` not `⊥` falls through to the `F == one` test, exactly as in the
source (there is no `f == ¬g → 0` terminal rule).  The memo cache is
modelled as empty, so the guarded `cuddCacheLookup2` (line 966) misses
and `cuddCacheInsert2` (line 1101) is a no-op.  The C duplicates the
recursive step for the two heuristic decisions; the model merges them,
`rec1` holding the pair recursed on first. -/
def cuddBddAndReducedRecur (fuel : Nat) (m : Mgr) (f g : Edge)
    (heu : Heu) (limit : Nat) : ApplyRes :=
  match fuel with
  | 0 => none
  | fuel + 1 =>
    if regularE f = regularE g ∧ f = g then
      cuddBddReduceByNodeLimitRecur fuel m f heu limit
    else if regularE f = regularE g ∧ regularE f = unkE then
      some (some unkE, m, 0, false)
    else if regularE f = oneE ∧ f = oneE then
      cuddBddReduceByNodeLimitRecur fuel m g heu limit
    else if regularE f = oneE then some (some f, m, 0, false)
    else if regularE g = oneE ∧ g = oneE then
      cuddBddReduceByNodeLimitRecur fuel m f heu limit
    else if regularE g = oneE then some (some g, m, 0, false)
    else
      let p := pointerOrder f g
      let cfs := andCofactors m p.1 p.2
      let decision := heu m p.1 (some p.2) none
      let rec1 := if decision < 0 then
            ((cfs.2.1.1, cfs.2.2.1), (cfs.2.1.2, cfs.2.2.2))
          else ((cfs.2.1.2, cfs.2.2.2), (cfs.2.1.1, cfs.2.2.1))
      match cuddBddAndReducedRecur fuel m rec1.1.1 rec1.1.2 heu
          (DD_MIN_NODE_LIMIT limit) with
      | none => none
      | some (none, m1, _, _) => some (none, m1, 0, false)
      | some (some a, m1, c1, r1) =>
        match cuddBddAndReducedRecur fuel m1 rec1.2.1 rec1.2.2 heu
            (DD_MIN_NODE_LIMIT (wsub limit c1)) with
        | none => none
        | some (none, m2, _, _) => some (none, m2, c1, false)
        | some (some b, m2, c2, r2) =>
          let t := if decision < 0 then a else b
          let e := if decision < 0 then b else a
          if t = e then some (some t, m2, c1 + c2, r1 || r2)
          else
            match reducedApplyCombine m2 cfs.1 t e with
            | ((none, m3), _) => some (none, m3, c1 + c2, r1 || r2)
            | ((some r, m3), compl) =>
              if flagged m3 r.id then
                some (some (if compl then notE r else r), m3,
                      c1 + c2, r1 || r2)
              else if limit = 0 then
                some (some unkE, m3, c1 + c2, true)
              else
                some (some (if compl then notE r else r),
                      setFlag m3 r.id, c1 + c2 + 1, r1 || r2)

/-- Top levels and cofactors of the Xor engine
(src/cudd/cuddBddUnknown.c:1189-1214): `f` is regular and non-constant
at this point, so its cofactors are read directly; `g` may carry a
complement, pushed onto its cofactors unless they are `⊥`. -/
def xorCofactors (m : Mgr) (f g : Edge) :
    Nat × (Edge × Edge) × (Edge × Edge) :=
  let topf := m.perm (getN m f.id).idx
  let topg := m.perm (getN m g.id).idx
  let fc :=
    if topf ≤ topg then
      ((getN m f.id).idx, (getN m f.id).t, (getN m f.id).e)
    else ((getN m g.id).idx, f, f)
  let gc :=
    if topg ≤ topf then
      (notCondE (getN m g.id).t (g.c && ((getN m g.id).t != unkE)),
       notCondE (getN m g.id).e (g.c && ((getN m g.id).e != unkE)))
    else (g, g)
  (fc.1, (fc.2.1, fc.2.2), gc)

/-- `cuddBddXorReducedRecur` (src/cudd/cuddBddUnknown.c:1110-1299).
Any `⊥` operand (modulo polarity) yields `⊥`; the pair is normalised by
the pointer order and by pulling the complement off `f`; there is no
`x ⊕ x` or `x ⊕ ¬x` terminal rule in the source.  The unguarded
`cuddCacheLookup2` (line 1175) is modelled as a miss.  As for And, the
two heuristic-decision copies of the recursive step are merged. -/
def cuddBddXorReducedRecur (fuel : Nat) (m : Mgr) (f g : Edge)
    (heu : Heu) (limit : Nat) : ApplyRes :=
  match fuel with
  | 0 => none
  | fuel + 1 =>
    if regularE f = unkE ∨ regularE g = unkE then some (some unkE, m, 0, false)
    else
      let p := pointerOrder f g
      if p.2 = zeroE then
        cuddBddReduceByNodeLimitRecur fuel m p.1 heu limit
      else if p.2 = oneE then
        cuddBddReduceByNodeLimitRecur fuel m (notE p.1) heu limit
      else
        let q := if p.1.c then (notE p.1, notE p.2) else (p.1, p.2)
        if q.1 = oneE then
          cuddBddReduceByNodeLimitRecur fuel m (notE q.2) heu limit
        else
          let cfs := xorCofactors m q.1 q.2
          let decision := heu m q.1 (some q.2) none
          let rec1 := if decision < 0 then
                ((cfs.2.1.1, cfs.2.2.1), (cfs.2.1.2, cfs.2.2.2))
              else ((cfs.2.1.2, cfs.2.2.2), (cfs.2.1.1, cfs.2.2.1))
          match cuddBddXorReducedRecur fuel m rec1.1.1 rec1.1.2 heu
              (DD_MIN_NODE_LIMIT limit) with
          | none => none
          | some (none, m1, _, _) => some (none, m1, 0, false)
          | some (some a, m1, c1, r1) =>
            match cuddBddXorReducedRecur fuel m1 rec1.2.1 rec1.2.2 heu
                (DD_MIN_NODE_LIMIT (wsub limit c1)) with
            | none => none
            | some (none, m2, _, _) => some (none, m2, c1, false)
            | some (some b, m2, c2, r2) =>
              let t := if decision < 0 then a else b
              let e := if decision < 0 then b else a
              if t = e then some (some t, m2, c1 + c2, r1 || r2)
              else
                match reducedApplyCombine m2 cfs.1 t e with
                | ((none, m3), _) => some (none, m3, c1 + c2, r1 || r2)
                | ((some r, m3), compl) =>
                  if flagged m3 r.id then
                    some (some (if compl then notE r else r), m3,
                          c1 + c2, r1 || r2)
                  else if limit = 0 then
                    some (some unkE, m3, c1 + c2, true)
                  else
                    some (some (if compl then notE r else r),
                          setFlag m3 r.id, c1 + c2 + 1, r1 || r2)

/-- Modelled from the spec: `bddVarToCanonicalSimple`, the ITE
input-polarity normalization (its code is not under src/; the spec says
ITE "is canonicalized to a standard form over `(f,g,h)` polarity (an
input-polarity normalization step returning a final-complement bit)
before recursion").  `ITE(¬f,g,h) = ITE(f,h,g)` makes `f` regular,
`ITE(f,¬g,h) = ¬ITE(f,g,¬h)` makes `g` regular and returns the final
complement bit; the three top levels are also computed (the operands
are known to be non-constant at this point). -/
def bddVarToCanonicalSimple (m : Mgr) (f g h : Edge) :
    Edge × Edge × Edge × Nat × Nat × Nat × Bool :=
  let p := if f.c then (notE f, h, g) else (f, g, h)
  let f1 := p.1
  let g1 := p.2.1
  let h1 := p.2.2
  let q := if g1.c then (notE g1, notE h1, true) else (g1, h1, false)
  let g2 := q.1
  let h2 := q.2.1
  let comple := q.2.2
  (f1, g2, h2, m.perm (getN m f1.id).idx, m.perm (getN m g2.id).idx,
   m.perm (getN m (regularE h2).id).idx, comple)

/-- Top levels and cofactors of the Ite engine
(src/cudd/cuddBddUnknown.c:790-817): `v` is first `min(topg, toph)`,
lowered to `topf` when `f` branches; `index` is overridden in turn by
`g` and by `h` when they branch at `v`; only `h` may carry a
complement, pushed onto its cofactors unless they are `⊥`. -/
def iteCofactors (m : Mgr) (f g h : Edge) (topf topg toph : Nat) :
    Nat × (Edge × Edge) × (Edge × Edge) × (Edge × Edge) :=
  let v := min topg toph
  let cf := if topf ≤ v then (min topf v, (getN m f.id).t, (getN m f.id).e)
            else (v, f, f)
  let cg := if topg = cf.1 then ((getN m g.id).idx, (getN m g.id).t, (getN m g.id).e)
            else ((getN m f.id).idx, g, g)
  let ch := if toph = cf.1 then
        ((getN m h.id).idx,
         notCondE (getN m h.id).t (h.c && ((getN m h.id).t != unkE)),
         notCondE (getN m h.id).e (h.c && ((getN m h.id).e != unkE)))
      else (cg.1, h, h)
  (ch.1, (cf.2.1, cf.2.2), (cg.2.1, cg.2.2), (ch.2.1, ch.2.2))

/-- The one-variable shortcut of the Ite engine
(src/cudd/cuddBddUnknown.c:754-772): when `f` is the projection of a
variable above both `g` and `h`, the node `(f.index, g, h)` is built
directly, billed against the budget unless already flagged. -/
def iteShortcut (m : Mgr) (f g h : Edge) (limit : Nat) (comple : Bool) :
    Option Edge × Mgr × Nat × Bool :=
  match cuddUniqueInter m (getN m f.id).idx g h with
  | (none, m1) => (none, m1, 0, false)
  | (some r, m1) =>
    if flagged m1 r.id then
      (some (notCondE r (comple && (r != unkE))), m1, 0, false)
    else if limit = 0 then (some unkE, m1, 0, true)
    else (some (notCondE r (comple && (r != unkE))),
          setFlag m1 r.id, 1, false)

/-- `cuddBddIteReducedRecur` (src/cudd/cuddBddUnknown.c:656-894).  The
one-variable and constant terminal cases delegate to the And/Xor
engines; `g == unknown || h == unknown` (line 743) returns `⊥`
directly; the unguarded `cuddCacheLookup` (line 776) is modelled as a
miss and `checkWhetherToGiveUp` as a no-op (no timeout in the model).
As for And, the two heuristic-decision copies of the recursive step
are merged. -/
def cuddBddIteReducedRecur (fuel : Nat) (m : Mgr) (f g h : Edge)
    (heu : Heu) (limit : Nat) : ApplyRes :=
  match fuel with
  | 0 => none
  | fuel + 1 =>
    if f = oneE ∨ g = h then
      cuddBddReduceByNodeLimitRecur fuel m g heu limit
    else if f = zeroE then
      cuddBddReduceByNodeLimitRecur fuel m h heu limit
    else if ((if f = unkE then 1 else 0) + (if g = unkE then 1 else 0)
              + (if h = unkE then 1 else 0) ≥ 2)
            ∨ (f = unkE ∧ g = notCondE h (h != unkE)) then
      some (some unkE, m, 0, false)
    else if f = unkE then some (some unkE, m, 0, false)
    else if g = oneE ∨ f = g then
      if h = zeroE then some (some f, m, 0, false)
      else
        match cuddBddAndReducedRecur fuel m (notCondE f (f != unkE))
            (notCondE h (h != unkE)) heu limit with
        | none => none
        | some (none, m1, c, r) => some (none, m1, c, r)
        | some (some res, m1, c, r) =>
          some (some (notCondE res (res != unkE)), m1, c, r)
    else if g = zeroE then
      if h = oneE then some (some (notE f), m, 0, false)
      else
        cuddBddAndReducedRecur fuel m (notCondE f (f != unkE)) h heu limit
    else if h = zeroE then
      cuddBddAndReducedRecur fuel m f g heu limit
    else if h = oneE then
      match cuddBddAndReducedRecur fuel m f (notCondE g (g != unkE))
          heu limit with
      | none => none
      | some (none, m1, c, r) => some (none, m1, c, r)
      | some (some res, m1, c, r) =>
        some (some (notCondE res (res != unkE)), m1, c, r)
    else if g = notE h then
      cuddBddXorReducedRecur fuel m f h heu limit
    else if g = unkE ∨ h = unkE then some (some unkE, m, 0, false)
    else
      let cn := bddVarToCanonicalSimple m f g h
      let f1 := cn.1
      let g1 := cn.2.1
      let h1 := cn.2.2.1
      let topf := cn.2.2.2.1
      let topg := cn.2.2.2.2.1
      let toph := cn.2.2.2.2.2.1
      let comple := cn.2.2.2.2.2.2
      if topf < min topg toph ∧ (getN m f1.id).t = oneE ∧
          (getN m f1.id).e = zeroE then
        some (iteShortcut m f1 g1 h1 limit comple)
      else
        let cfs := iteCofactors m f1 g1 h1 topf topg toph
        let decision := heu m f1 (some g1) (some h1)
        let rec1 := if decision < 0 then
              ((cfs.2.1.1, cfs.2.2.1.1, cfs.2.2.2.1),
               (cfs.2.1.2, cfs.2.2.1.2, cfs.2.2.2.2))
            else ((cfs.2.1.2, cfs.2.2.1.2, cfs.2.2.2.2),
                  (cfs.2.1.1, cfs.2.2.1.1, cfs.2.2.2.1))
        match cuddBddIteReducedRecur fuel m rec1.1.1 rec1.1.2.1 rec1.1.2.2
            heu (DD_MIN_NODE_LIMIT limit) with
        | none => none
        | some (none, m1, _, _) => some (none, m1, 0, false)
        | some (some a, m1, c1, r1) =>
          match cuddBddIteReducedRecur fuel m1 rec1.2.1 rec1.2.2.1
              rec1.2.2.2 heu (DD_MIN_NODE_LIMIT (wsub limit c1)) with
          | none => none
          | some (none, m2, _, _) => some (none, m2, c1, false)
          | some (some b, m2, c2, r2) =>
            let t := if decision < 0 then a else b
            let e := if decision < 0 then b else a
            if t = e then
              some (some (notCondE t (comple && (t != unkE))), m2,
                    c1 + c2, r1 || r2)
            else
              let cano :=
                if t.c then
                  (notE t, notCondE e (e != unkE), !comple)
                else if t = unkE ∧ notE e = regularE e then
                  (t, regularE e, !comple)
                else (t, e, comple)
              match cuddUniqueInter m2 cfs.1 cano.1 cano.2.1 with
              | (none, m3) => some (none, m3, c1 + c2, r1 || r2)
              | (some r, m3) =>
                if flagged m3 r.id then
                  some (some (notCondE r (cano.2.2 && (r != unkE))), m3,
                        c1 + c2, r1 || r2)
                else if limit = 0 then
                  some (some unkE, m3, c1 + c2, true)
                else
                  some (some (notCondE r (cano.2.2 && (r != unkE))),
                        setFlag m3 r.id, c1 + c2 + 1, r1 || r2)

/-- Modelled from the spec: `Cudd_bddIsVar` (its code is not under
src/); per the spec a "single-variable node", i.e. the projection node
whose then-child is `1` and else-child is `0`; the argument is a
regular pointer. -/
def Cudd_bddIsVar (m : Mgr) (V : Edge) : Bool :=
  decide (2 ≤ V.id) && ((getN m V.id).t == oneE) && ((getN m V.id).e == zeroE)

/-- Shannon co-descent cofactors of `Cudd_BddReduceByValuation`
(src/cudd/cuddBddUnknown.c:113-125): the pair on the shallower level is
cofactored, the other kept whole. -/
def valCofactors (m : Mgr) (bdd val : Edge) (topb topv : Nat) :
    (Edge × Edge) × (Edge × Edge) :=
  let cb :=
    if topb ≤ topv then
      (notCondE (getN m bdd.id).t
        (bdd.c && ((getN m bdd.id).t != unkE)),
       notCondE (getN m bdd.id).e
        (bdd.c && ((getN m bdd.id).e != unkE)))
    else (bdd, bdd)
  let cv :=
    if topb ≥ topv then
      (notCondE (getN m val.id).t
        (val.c && ((getN m val.id).t != unkE)),
       notCondE (getN m val.id).e
        (val.c && ((getN m val.id).e != unkE)))
    else (val, val)
  (cb, cv)

/-- The on-the-fly forgetting rewrites of `Cudd_BddReduceByValuation`
(src/cudd/cuddBddUnknown.c:132-165), applied to the recursively
computed pair `(t, e)`: when the single-variable valuation has reached
the top of `bdd` and one computed branch equals its own cofactor on the
valuation's variable, the redundant branch is rewritten to `⊥` and the
node is raised to the valuation's variable.  Returns the possibly
rewritten `(t, e, index)`. -/
def valForgetting (m : Mgr) (val : Edge) (t e : Edge) (index : Nat)
    (topb topv : Nat) : Edge × Edge × Nat :=
  if topb < topv ∧ Cudd_bddIsVar m (regularE val) then
    if !val.c then
      if nodeIndex m val.id = nodeIndex m t.id then
        if (t = regularE t ∧ (getN m t.id).t = e)
            ∨ (t ≠ regularE t ∧ (getN m t.id).t = notE e) then
          (e, unkE, nodeIndex m val.id)
        else (t, e, index)
      else if nodeIndex m val.id = nodeIndex m e.id then
        if (e = regularE e ∧ (getN m e.id).t = t)
            ∨ (e ≠ regularE e ∧ (getN m e.id).t = notE t) then
          (t, unkE, nodeIndex m val.id)
        else (t, e, index)
      else (t, e, index)
    else
      if nodeIndex m val.id = nodeIndex m t.id then
        if (t = regularE t ∧ (getN m t.id).e = e)
            ∨ (t ≠ regularE t ∧ (getN m t.id).e = notE e) then
          (unkE, e, nodeIndex m val.id)
        else (t, e, index)
      else if nodeIndex m val.id = nodeIndex m e.id then
        if (e = regularE e ∧ (getN m e.id).e = t)
            ∨ (e ≠ regularE e ∧ (getN m e.id).e = notE t) then
          (unkE, t, nodeIndex m val.id)
        else (t, e, index)
      else (t, e, index)
  else (t, e, index)

/-- `Cudd_BddReduceByValuation` (src/cudd/cuddBddUnknown.c:79-178).
Note the order of the leading tests: a constant `bdd` returns itself
before `val` is inspected.  The recursion co-descends on the shallower
variable and then applies the on-the-fly forgetting rewrites; `r0`
records the C `r = (t == e) ? t : NULL` computed before the rewrites,
which therefore win only when `t ≠ e` held.  `none` covers both fuel
exhaustion and an allocation failure (the C code does not check the
`cuddUniqueInter` result here). -/
def Cudd_BddReduceByValuation (fuel : Nat) (m : Mgr) (bdd val : Edge) :
    Option (Edge × Mgr) :=
  match fuel with
  | 0 => none
  | fuel + 1 =>
    if bdd = oneE ∨ bdd = zeroE ∨ bdd = unkE then some (bdd, m)
    else if val = oneE then some (bdd, m)
    else if val = zeroE then some (unkE, m)
    else
      let topb := m.perm (getN m bdd.id).idx
      let topv := m.perm (getN m val.id).idx
      if topb > topv ∧ Cudd_bddIsVar m (regularE val) then some (bdd, m)
      else
        let cfs := valCofactors m bdd val topb topv
        match Cudd_BddReduceByValuation fuel m cfs.1.1 cfs.2.1 with
        | none => none
        | some (t, m1) =>
          match Cudd_BddReduceByValuation fuel m1 cfs.1.2 cfs.2.2 with
          | none => none
          | some (e, m2) =>
            let r0 : Option Edge := if t = e then some t else none
            let fg := valForgetting m2 val t e (min topb topv) topb topv
            match r0 with
            | some r => some (r, m2)
            | none =>
              if fg.1.c then
                match cuddUniqueInter m2 fg.2.2 (regularE fg.1)
                    (notCondE fg.2.1 (fg.2.1 != unkE)) with
                | (some u, m3) => some (notE u, m3)
                | (none, _) => none
              else if fg.1 = unkE ∧ fg.2.1.c then
                match cuddUniqueInter m2 fg.2.2 fg.1 (notE fg.2.1) with
                | (some u, m3) => some (notE u, m3)
                | (none, _) => none
              else
                match cuddUniqueInter m2 fg.2.2 fg.1 fg.2.1 with
                | (some u, m3) => some (u, m3)
                | (none, _) => none

/-- `Cudd_bddAndReduced` (src/cudd/cuddBddUnknown.c:218-237): the retry
loop runs once in the model (reordering never triggers), then the
`MAXREF` sweep follows the returned edge; `clearMaxrefFlagRecur(NULL)`
is a no-op (its first test reads `Cudd_Regular(NULL) == NULL`).  The C
wrapper returns only the edge; the model also exposes the final
accumulators. -/
def Cudd_bddAndReduced (fuel : Nat) (m : Mgr) (f g : Edge) (heu : Heu)
    (limit : Nat) : ApplyRes :=
  match cuddBddAndReducedRecur fuel m f g heu limit with
  | none => none
  | some (res, m1, c, red) =>
    let fl :=
      match res with
      | none => m1.flags
      | some r => clearMaxref m1.nodes (m1.flags.length + 1) m1.flags r
    some (res, { m1 with flags := fl }, c, red)

/-- `Cudd_bddOrReduced` (src/cudd/cuddBddUnknown.c:240-261):
`¬And(¬f, ¬g)` with every complementation guarded by the
`NotIfNotUnknown` test against `⊥`. -/
def Cudd_bddOrReduced (fuel : Nat) (m : Mgr) (f g : Edge) (heu : Heu)
    (limit : Nat) : ApplyRes :=
  match cuddBddAndReducedRecur fuel m (notCondE f (f != unkE))
      (notCondE g (g != unkE)) heu limit with
  | none => none
  | some (res, m1, c, red) =>
    let fl :=
      match res with
      | none => m1.flags
      | some r => clearMaxref m1.nodes (m1.flags.length + 1) m1.flags r
    let res1 :=
      match res with
      | none => none
      | some r => some (notCondE r (r != unkE))
    some (res1, { m1 with flags := fl }, c, red)

/-- `Cudd_bddXorReduced` (src/cudd/cuddBddUnknown.c:311-330). -/
def Cudd_bddXorReduced (fuel : Nat) (m : Mgr) (f g : Edge) (heu : Heu)
    (limit : Nat) : ApplyRes :=
  match cuddBddXorReducedRecur fuel m f g heu limit with
  | none => none
  | some (res, m1, c, red) =>
    let fl :=
      match res with
      | none => m1.flags
      | some r => clearMaxref m1.nodes (m1.flags.length + 1) m1.flags r
    some (res, { m1 with flags := fl }, c, red)

/-- `Cudd_bddXnorReduced` (src/cudd/cuddBddUnknown.c:333-354): Xor with
the final result complemented under the `NotIfNotUnknown` guard. -/
def Cudd_bddXnorReduced (fuel : Nat) (m : Mgr) (f g : Edge) (heu : Heu)
    (limit : Nat) : ApplyRes :=
  match cuddBddXorReducedRecur fuel m f g heu limit with
  | none => none
  | some (res, m1, c, red) =>
    let fl :=
      match res with
      | none => m1.flags
      | some r => clearMaxref m1.nodes (m1.flags.length + 1) m1.flags r
    let res1 :=
      match res with
      | none => none
      | some r => some (notCondE r (r != unkE))
    some (res1, { m1 with flags := fl }, c, red)

/-- `Cudd_bddIteReduced` (src/cudd/cuddBddUnknown.c:195-215). -/
def Cudd_bddIteReduced (fuel : Nat) (m : Mgr) (f g h : Edge) (heu : Heu)
    (limit : Nat) : ApplyRes :=
  match cuddBddIteReducedRecur fuel m f g h heu limit with
  | none => none
  | some (res, m1, c, red) =>
    let fl :=
      match res with
      | none => m1.flags
      | some r => clearMaxref m1.nodes (m1.flags.length + 1) m1.flags r
    some (res, { m1 with flags := fl }, c, red)

/-- The condition under which `cuddBddAndReducedRecur` performs its
memo-cache lookup, transcribed from line 966 of the source:
`if (F->ref != 1 || G->ref != 1) { r = cuddCacheLookup2(...); ... }`,
as a function of the two operands' reference counts. -/
def andCacheLookupGuard (refF refG : Nat) : Bool :=
  (refF != 1) || (refG != 1)

/-- The condition under which `cuddBddXorReducedRecur` performs its
memo-cache lookup: line 1175 calls `cuddCacheLookup2` unconditionally,
so the guard is `true` for all reference counts. -/
def xorCacheLookupGuard (refF refG : Nat) : Bool := true

/-- The condition under which `cuddBddIteReducedRecur` performs its
memo-cache lookup: line 776 calls `cuddCacheLookup` unconditionally,
so the guard is `true` for all reference counts. -/
def iteCacheLookupGuard (refF refG refH : Nat) : Bool := true

/-! ### Basic algebra of the three truth values and of edges -/

theorem neg3_neg3 (a : V3) : neg3 (neg3 a) = a := by cases a <;> rfl

theorem notE_notE (e : Edge) : notE (notE e) = e := by
  simp [notE]

theorem evalE_notE (ns : List Node) (σ : Nat → Bool) (e : Edge) :
    evalE ns σ (notE e) = neg3 (evalE ns σ e) := by
  unfold evalE notE
  cases hc : e.c <;> simp [hc, neg3_neg3]

theorem evalE_notCondE (ns : List Node) (σ : Nat → Bool) (e : Edge) (b : Bool) :
    evalE ns σ (notCondE e b) = if b then neg3 (evalE ns σ e) else evalE ns σ e := by
  cases b <;> simp [notCondE, evalE_notE]

theorem evalE_oneE (ns : List Node) (σ : Nat → Bool) : evalE ns σ oneE = V3.one := by
  simp [evalE, oneE, evalN]

theorem evalE_zeroE (ns : List Node) (σ : Nat → Bool) : evalE ns σ zeroE = V3.zero := by
  simp [evalE, zeroE, evalN, neg3]

theorem evalE_unkE (ns : List Node) (σ : Nat → Bool) : evalE ns σ unkE = V3.bot := by
  simp [evalE, unkE, evalN]

theorem evalE_unk_compl (ns : List Node) (σ : Nat → Bool) :
    evalE ns σ ⟨1, true⟩ = V3.bot := by
  simp [evalE, evalN, neg3]

/-- Unknown modulo polarity evaluates to `⊥`. -/
theorem evalE_regular_unk (ns : List Node) (σ : Nat → Bool) (e : Edge)
    (h : e.id = 1) : evalE ns σ e = V3.bot := by
  unfold evalE
  rw [h, evalN]
  simp [neg3]

/-- Unfolding of the node denotation on an internal node. -/
theorem evalN_node (ns : List Node) (σ : Nat → Bool) (id : Nat) (nd : Node)
    (h2 : 2 ≤ id) (hnd : ns[id - 2]? = some nd)
    (ht : nd.t.id < id) (he : nd.e.id < id) :
    evalN ns σ id = if σ nd.idx then evalE ns σ nd.t else evalE ns σ nd.e := by
  have h0 : ¬ id = 0 := by omega
  have h1 : ¬ id = 1 := by omega
  rw [evalN]
  simp only [h0, if_false, h1, hnd, ht, he, dif_pos]
  unfold evalE
  rfl

/-- Edge denotation through an internal node. -/
theorem evalE_node (ns : List Node) (σ : Nat → Bool) (f : Edge) (nd : Node)
    (h2 : 2 ≤ f.id) (hnd : ns[f.id - 2]? = some nd)
    (ht : nd.t.id < f.id) (he : nd.e.id < f.id) :
    evalE ns σ f = (if f.c then neg3 else id)
      (if σ nd.idx then evalE ns σ nd.t else evalE ns σ nd.e) := by
  unfold evalE
  rw [evalN_node ns σ f.id nd h2 hnd ht he]
  cases f.c <;> simp [evalE]

/-! ### Stability of denotations under table extension -/

theorem evalN_append (ns ex : List Node) (σ : Nat → Bool) :
    ∀ id, id < ns.length + 2 → evalN (ns ++ ex) σ id = evalN ns σ id := by
  intro id
  induction id using Nat.strong_induction_on with
  | _ id ih =>
    intro hid
    rw [evalN, evalN]
    by_cases h0 : id = 0
    · simp [h0]
    by_cases h1 : id = 1
    · simp [h0, h1]
    simp only [h0, h1, if_false]
    have hlt : id - 2 < ns.length := by omega
    rw [List.getElem?_append_left hlt]
    cases hnd : ns[id - 2]? with
    | none => rfl
    | some nd =>
      have hr : ∀ j, j < id → evalN (ns ++ ex) σ j = evalN ns σ j := by
        intro j hj
        exact ih j hj (by omega)
      by_cases ht : nd.t.id < id
      · by_cases he : nd.e.id < id
        · simp only [dif_pos ht, dif_pos he, hr nd.t.id ht, hr nd.e.id he]
        · simp only [dif_pos ht, dif_neg he, hr nd.t.id ht]
      · by_cases he : nd.e.id < id
        · simp only [dif_neg ht, dif_pos he, hr nd.e.id he]
        · simp only [dif_neg ht, dif_neg he]

theorem evalE_append (ns ex : List Node) (σ : Nat → Bool) (e : Edge)
    (h : e.id < ns.length + 2) :
    evalE (ns ++ ex) σ e = evalE ns σ e := by
  unfold evalE
  rw [evalN_append ns ex σ e.id h]

/-! ### The unique table -/

theorem findNode_spec (ns : List Node) (nd : Node) :
    ∀ i, findNode ns nd = some i → ns[i]? = some nd := by
  induction ns with
  | nil => intro i h; simp [findNode] at h
  | cons x xs ih =>
    intro i h
    rw [findNode] at h
    split at h
    · next hx =>
      simp only [Option.some.injEq] at h
      subst h
      simp [hx]
    · cases hfx : findNode xs nd with
      | none => rw [hfx] at h; simp at h
      | some j =>
        rw [hfx] at h
        simp only [Option.map_some', Option.some.injEq] at h
        subst h
        have := ih j hfx
        simpa using this

theorem findNode_none (ns : List Node) (nd : Node)
    (h : findNode ns nd = none) : ¬ nd ∈ ns := by
  induction ns with
  | nil => simp
  | cons x xs ih =>
    rw [findNode] at h
    split at h
    · simp at h
    · next hx =>
      cases hfx : findNode xs nd with
      | none =>
        intro hmem
        rcases List.mem_cons.mp hmem with h1 | h1
        · exact hx h1.symm
        · exact ih hfx h1
      | some j => rw [hfx] at h; simp at h

/-- Specification of `cuddUniqueInter`: the manager is preserved except
possibly one appended node; a successful result is a regular edge to a
node holding exactly the requested triple. -/
theorem cuddUniqueInter_spec (m : Mgr) (idx : Nat) (t e : Edge) :
    (cuddUniqueInter m idx t e).2.perm = m.perm ∧
    (cuddUniqueInter m idx t e).2.cap = m.cap ∧
    (cuddUniqueInter m idx t e).2.flags = m.flags ∧
    (((cuddUniqueInter m idx t e).1 = none ∧ (cuddUniqueInter m idx t e).2 = m) ∨
     (∃ r, (cuddUniqueInter m idx t e).1 = some r ∧ r.c = false ∧ 2 ≤ r.id ∧
       r.id < (cuddUniqueInter m idx t e).2.nodes.length + 2 ∧
       (cuddUniqueInter m idx t e).2.nodes[r.id - 2]? = some ⟨idx, t, e⟩ ∧
       ((cuddUniqueInter m idx t e).2.nodes = m.nodes ∨
        ((cuddUniqueInter m idx t e).2.nodes = m.nodes ++ [⟨idx, t, e⟩] ∧
         r.id = m.nodes.length + 2)))) := by
  simp only [cuddUniqueInter]
  cases hf : findNode m.nodes ⟨idx, t, e⟩ with
  | some i =>
    have hi := findNode_spec m.nodes ⟨idx, t, e⟩ i hf
    have hlen : i < m.nodes.length := by
      by_contra hc
      rw [List.getElem?_eq_none (by omega)] at hi
      exact Option.noConfusion hi
    refine ⟨rfl, rfl, rfl, Or.inr ⟨(⟨i + 2, false⟩ : Edge), rfl, rfl, ?_, ?_, ?_, Or.inl rfl⟩⟩
    · show 2 ≤ i + 2
      omega
    · show i + 2 < m.nodes.length + 2
      omega
    · simpa using hi
  | none =>
    cases hcap : m.cap with
    | some cp =>
      dsimp only
      by_cases hover : m.nodes.length + 1 > cp
      · rw [if_pos hover]
        exact ⟨rfl, hcap, rfl, Or.inl ⟨rfl, rfl⟩⟩
      · rw [if_neg hover]
        refine ⟨rfl, rfl, rfl, Or.inr ⟨(⟨m.nodes.length + 2, false⟩ : Edge), rfl, rfl, ?_, ?_, ?_, Or.inr ⟨rfl, rfl⟩⟩⟩
        · show 2 ≤ m.nodes.length + 2
          omega
        · show m.nodes.length + 2 < (m.nodes ++ [(⟨idx, t, e⟩ : Node)]).length + 2
          simp
        · show (m.nodes ++ [(⟨idx, t, e⟩ : Node)])[m.nodes.length + 2 - 2]? = some ⟨idx, t, e⟩
          simp
    | none =>
      dsimp only
      refine ⟨rfl, rfl, rfl, Or.inr ⟨(⟨m.nodes.length + 2, false⟩ : Edge), rfl, rfl, ?_, ?_, ?_, Or.inr ⟨rfl, rfl⟩⟩⟩
      · show 2 ≤ m.nodes.length + 2
        omega
      · show m.nodes.length + 2 < (m.nodes ++ [(⟨idx, t, e⟩ : Node)]).length + 2
        simp
      · show (m.nodes ++ [(⟨idx, t, e⟩ : Node)])[m.nodes.length + 2 - 2]? = some ⟨idx, t, e⟩
        simp

/-! ### Bookkeeping of manager evolution: appended nodes and new flags -/

theorem wsub_of_le (a b : Nat) (h : b ≤ a) : wsub a b = a - b := by
  unfold wsub
  rw [if_pos h]

/-- Shape of a manager transition: the variable order and capacity are
untouched, nodes are only appended, flags only gain `cnt` fresh valid
ids, and at most one node is appended per fresh flag. -/
def MShape (m m' : Mgr) (cnt : Nat) : Prop :=
  m'.perm = m.perm ∧ m'.cap = m.cap ∧
  ∃ ext nf, m'.nodes = m.nodes ++ ext ∧ m'.flags = nf ++ m.flags ∧
    nf.Nodup ∧ (∀ i ∈ nf, i ∉ m.flags) ∧
    (∀ i ∈ nf, 2 ≤ i ∧ i < m'.nodes.length + 2) ∧
    ext.length ≤ nf.length ∧ nf.length = cnt

theorem MShape_refl (m : Mgr) : MShape m m 0 :=
  ⟨rfl, rfl, [], [], by simp, by simp, by simp, by simp, by simp, by simp⟩

theorem MShape_len_le {m m' : Mgr} {k : Nat} (h : MShape m m' k) :
    m.nodes.length ≤ m'.nodes.length := by
  obtain ⟨_, _, ext, nf, hn, _⟩ := h
  rw [hn]
  simp

theorem MShape_trans {m m1 m2 : Mgr} {k1 k2 : Nat}
    (h1 : MShape m m1 k1) (h2 : MShape m1 m2 k2) : MShape m m2 (k1 + k2) := by
  obtain ⟨hp1, hc1, ext1, nf1, hn1, hf1, hd1, hdis1, hb1, hl1, hk1⟩ := h1
  obtain ⟨hp2, hc2, ext2, nf2, hn2, hf2, hd2, hdis2, hb2, hl2, hk2⟩ := h2
  refine ⟨hp2.trans hp1, hc2.trans hc1, ext1 ++ ext2, nf2 ++ nf1, ?_, ?_, ?_, ?_, ?_, ?_, ?_⟩
  · rw [hn2, hn1, List.append_assoc]
  · rw [hf2, hf1, List.append_assoc]
  · rw [List.nodup_append]
    refine ⟨hd2, hd1, ?_⟩
    intro a ha hb
    have := hdis2 a ha
    rw [hf1] at this
    exact this (List.mem_append.mpr (Or.inl hb))
  · intro i hi
    rcases List.mem_append.mp hi with hmem | hmem
    · have := hdis2 i hmem
      rw [hf1] at this
      intro hin
      exact this (List.mem_append.mpr (Or.inr hin))
    · exact hdis1 i hmem
  · intro i hi
    have hlen : m1.nodes.length ≤ m2.nodes.length := by
      rw [hn2]; simp
    rcases List.mem_append.mp hi with hmem | hmem
    · exact hb2 i hmem
    · have := hb1 i hmem
      omega
  · simp only [List.length_append]
    omega
  · simp only [List.length_append]
    omega

theorem MShape_flags_lt {m m' : Mgr} {k : Nat} (h : MShape m m' k)
    (hfl : ∀ i ∈ m.flags, i < m.nodes.length + 2) :
    ∀ i ∈ m'.flags, i < m'.nodes.length + 2 := by
  obtain ⟨_, _, ext, nf, hn, hf, _, _, hb, _, _⟩ := h
  intro i hi
  rw [hf] at hi
  have hlen : m.nodes.length ≤ m'.nodes.length := by rw [hn]; simp
  rcases List.mem_append.mp hi with hmem | hmem
  · exact (hb i hmem).2
  · have := hfl i hmem
    omega

/-- Hypothesis-style form of `cuddUniqueInter_spec`. -/
theorem cuddUniqueInter_cases (m : Mgr) (idx : Nat) (t e : Edge)
    (ro : Option Edge) (m2 : Mgr) (h : cuddUniqueInter m idx t e = (ro, m2)) :
    m2.perm = m.perm ∧ m2.cap = m.cap ∧ m2.flags = m.flags ∧
    ((ro = none ∧ m2 = m) ∨
     (∃ r, ro = some r ∧ r.c = false ∧ 2 ≤ r.id ∧
       r.id < m2.nodes.length + 2 ∧ m2.nodes[r.id - 2]? = some ⟨idx, t, e⟩ ∧
       (m2.nodes = m.nodes ∨
        (m2.nodes = m.nodes ++ [⟨idx, t, e⟩] ∧ r.id = m.nodes.length + 2)))) := by
  have hs := cuddUniqueInter_spec m idx t e
  rw [h] at hs
  simpa using hs

/-- Shape consequences of `reducedApplyCombine`. -/
theorem reducedApplyCombine_shape (m : Mgr) (idx : Nat) (t e : Edge)
    (ro : Option Edge) (m3 : Mgr) (compl : Bool)
    (h : reducedApplyCombine m idx t e = ((ro, m3), compl)) :
    m3.perm = m.perm ∧ m3.cap = m.cap ∧ m3.flags = m.flags ∧
    ((ro = none ∧ m3 = m) ∨
     (∃ r, ro = some r ∧ r.c = false ∧ 2 ≤ r.id ∧
       r.id < m3.nodes.length + 2 ∧
       (m3.nodes = m.nodes ∨
        (∃ nd, m3.nodes = m.nodes ++ [nd] ∧ r.id = m.nodes.length + 2)))) := by
  unfold reducedApplyCombine at h
  split_ifs at h with h1 h2 <;>
  · rw [Prod.ext_iff] at h
    obtain ⟨hui, _⟩ := h
    obtain ⟨hp, hc, hf, hcase⟩ := cuddUniqueInter_cases _ _ _ _ _ _ hui
    refine ⟨hp, hc, hf, ?_⟩
    rcases hcase with ⟨hro, hm⟩ | ⟨r, hro, hrc, hr2, hrlt, _, hnodes⟩
    · exact Or.inl ⟨hro, hm⟩
    · refine Or.inr ⟨r, hro, hrc, hr2, hrlt, ?_⟩
      rcases hnodes with hsame | ⟨happ, hid⟩
      · exact Or.inl hsame
      · exact Or.inr ⟨_, happ, hid⟩

/-- A successful combine on an already-flagged node leaves the manager
unchanged up to shape (in particular no node can have been appended,
since a fresh id is never flagged when flags are valid). -/
theorem combine_flagged_shape {m : Mgr} {idx : Nat} {t e : Edge}
    {r : Edge} {m3 : Mgr} {compl : Bool}
    (h : reducedApplyCombine m idx t e = ((some r, m3), compl))
    (hfl : ∀ i ∈ m.flags, i < m.nodes.length + 2)
    (hflag : flagged m3 r.id = true) : MShape m m3 0 := by
  obtain ⟨hp, hc, hf, hcase⟩ := reducedApplyCombine_shape _ _ _ _ _ _ _ h
  rcases hcase with ⟨hro, _⟩ | ⟨r1, hro, hrc, hr2, hrlt, hnodes⟩
  · exact Option.noConfusion hro
  · injection hro with h1
    subst h1
    rcases hnodes with hsame | ⟨nd, happ, hid⟩
    · exact ⟨hp, hc, [], [], by simpa using hsame, by simpa using hf,
        by simp, by simp, by simp, by simp, by simp⟩
    · exfalso
      unfold flagged at hflag
      rw [hf] at hflag
      have := hfl r.id (by simpa using hflag)
      omega

/-- A successful combine on an unflagged node, followed by the billing
`DD_MAXREF_SET_FLAG`, adds exactly one flag (and at most one node). -/
theorem combine_unflagged_shape {m : Mgr} {idx : Nat} {t e : Edge}
    {r : Edge} {m3 : Mgr} {compl : Bool}
    (h : reducedApplyCombine m idx t e = ((some r, m3), compl))
    (hflag : ¬ flagged m3 r.id = true) : MShape m (setFlag m3 r.id) 1 := by
  obtain ⟨hp, hc, hf, hcase⟩ := reducedApplyCombine_shape _ _ _ _ _ _ _ h
  rcases hcase with ⟨hro, _⟩ | ⟨r1, hro, hrc, hr2, hrlt, hnodes⟩
  · exact Option.noConfusion hro
  · injection hro with h1
    subst h1
    unfold flagged at hflag
    rw [hf] at hflag
    simp only [decide_eq_true_eq] at hflag
    have hrnot : r.id ∉ m.flags := hflag
    rcases hnodes with hsame | ⟨nd, happ, hid⟩
    · refine ⟨hp, hc, [], [r.id], by simpa using hsame, ?_, by simp, ?_, ?_, by simp, by simp⟩
      · show (setFlag m3 r.id).flags = [r.id] ++ m.flags
        unfold setFlag
        simp [hf]
      · intro i hi
        simp only [List.mem_singleton] at hi
        subst hi
        exact hrnot
      · intro i hi
        simp only [List.mem_singleton] at hi
        subst hi
        unfold setFlag
        exact ⟨hr2, hrlt⟩
    · refine ⟨hp, hc, [nd], [r.id], by simpa using happ, ?_, by simp, ?_, ?_, by simp, by simp⟩
      · show (setFlag m3 r.id).flags = [r.id] ++ m.flags
        unfold setFlag
        simp [hf]
      · intro i hi
        simp only [List.mem_singleton] at hi
        subst hi
        exact hrnot
      · intro i hi
        simp only [List.mem_singleton] at hi
        subst hi
        unfold setFlag
        exact ⟨hr2, hrlt⟩

theorem combine_none_eq {m : Mgr} {idx : Nat} {t e : Edge}
    {m3 : Mgr} {compl : Bool}
    (h : reducedApplyCombine m idx t e = ((none, m3), compl)) : m3 = m := by
  obtain ⟨_, _, _, hcase⟩ := reducedApplyCombine_shape _ _ _ _ _ _ _ h
  rcases hcase with ⟨_, hm⟩ | ⟨r, hro, _⟩
  · exact hm
  · exact Option.noConfusion hro

/-- Bookkeeping induction for the node-budget reducer: the consumed
count never exceeds the budget (so the C unsigned subtraction
`limit - 1 - *nodesConsumed` never wraps), and the manager evolves by
`MShape` with, on success, exactly `c` fresh flags. -/
theorem reduce_shape (fuel : Nat) :
    ∀ m f heu limit res m' c red,
      cuddBddReduceByNodeLimitRecur fuel m f heu limit = some (res, m', c, red) →
      (∀ i ∈ m.flags, i < m.nodes.length + 2) →
      c ≤ limit ∧ ∃ k, MShape m m' k ∧ (∀ r, res = some r → k = c) := by
  induction fuel with
  | zero =>
    intro m f heu limit res m' c red h hfl
    simp [cuddBddReduceByNodeLimitRecur] at h
  | succ fuel ih =>
    intro m f heu limit res m' c red h hfl
    simp only [cuddBddReduceByNodeLimitRecur] at h
    split at h
    · obtain ⟨h1, h2, h3, h4⟩ := by
        simpa using h
      subst h2 h3
      exact ⟨by omega, 0, MShape_refl m, fun r hr => rfl⟩
    · split at h
      · obtain ⟨h1, h2, h3, h4⟩ := by
          simpa using h
        subst h2 h3
        exact ⟨by omega, 0, MShape_refl m, fun r hr => rfl⟩
      · split at h
        · obtain ⟨h1, h2, h3, h4⟩ := by
            simpa using h
          subst h2 h3
          exact ⟨by omega, 0, MShape_refl m, fun r hr => rfl⟩
        · next hlim =>
          split at h
          · exact absurd h (by simp)
          next m1 c0 r0 heq1 =>
            obtain ⟨h1, h2, h3, h4⟩ := by
              simpa using h
            subst h2 h3
            obtain ⟨hc1, k1, hs1, _⟩ := ih _ _ _ _ _ _ _ _ heq1 hfl
            exact ⟨by omega, k1, hs1, fun r hr => by simp [← h1] at hr⟩
          next a m1 c1 r1 heq1 =>
            obtain ⟨hc1, k1, hs1, hk1⟩ := ih _ _ _ _ _ _ _ _ heq1 hfl
            have hfl1 : ∀ i ∈ m1.flags, i < m1.nodes.length + 2 :=
              MShape_flags_lt hs1 hfl
            have hk1e : k1 = c1 := hk1 a rfl
            have hwsub : wsub (limit - 1) c1 = limit - 1 - c1 :=
              wsub_of_le _ _ hc1
            split at h
            · exact absurd h (by simp)
            next m2 c0 r0 heq2 =>
              obtain ⟨h1, h2, h3, h4⟩ := by
                simpa using h
              subst h2 h3
              obtain ⟨hc2, k2, hs2, _⟩ := ih _ _ _ _ _ _ _ _ heq2 hfl1
              exact ⟨by omega, k1 + k2, MShape_trans hs1 hs2,
                fun r hr => by simp [← h1] at hr⟩
            next b m2 c2 r2 heq2 =>
              obtain ⟨hc2, k2, hs2, hk2⟩ := ih _ _ _ _ _ _ _ _ heq2 hfl1
              have hk2e : k2 = c2 := hk2 b rfl
              rw [hwsub] at hc2
              have hfl2 : ∀ i ∈ m2.flags, i < m2.nodes.length + 2 :=
                MShape_flags_lt hs2 hfl1
              by_cases hdec : heu m f none none < 0 <;>
                [simp only [if_pos hdec] at h; simp only [if_neg hdec] at h] <;>
              · split at h
                · obtain ⟨h1, h2, h3, h4⟩ := by
                    simpa using h
                  subst h2 h3
                  exact ⟨by omega, k1 + k2, MShape_trans hs1 hs2,
                    fun r hr => by omega⟩
                · split at h
                  next m3 compl hcmb =>
                    obtain ⟨h1, h2, h3, h4⟩ := by
                      simpa using h
                    subst h2 h3
                    have hm3 : m3 = m2 := combine_none_eq hcmb
                    subst hm3
                    exact ⟨by omega, k1 + k2, MShape_trans hs1 hs2,
                      fun r hr => by simp [← h1] at hr⟩
                  next r m3 compl hcmb =>
                    split at h
                    · next hflag =>
                      obtain ⟨h1, h2, h3, h4⟩ := by
                        simpa using h
                      subst h2 h3
                      have hs3 : MShape m2 m3 0 :=
                        combine_flagged_shape hcmb hfl2 hflag
                      exact ⟨by omega, k1 + k2 + 0,
                        MShape_trans (MShape_trans hs1 hs2) hs3,
                        fun r hr => by omega⟩
                    · next hflag =>
                      obtain ⟨h1, h2, h3, h4⟩ := by
                        simpa using h
                      subst h2 h3
                      have hs3 : MShape m2 (setFlag m3 r.id) 1 :=
                        combine_unflagged_shape hcmb hflag
                      exact ⟨by omega, k1 + k2 + 1,
                        MShape_trans (MShape_trans hs1 hs2) hs3,
                        fun r hr => by omega⟩

/-! ### Reachable ids and validity propagation -/

theorem reachF_le_aux (ns : List Node) :
    ∀ n, ∀ e : Edge, e.id ≤ n → ∀ i ∈ reachF ns e, i ≤ e.id := by
  intro n
  induction n with
  | zero =>
    intro e he i hi
    rw [reachF, if_pos (by omega)] at hi
    simp at hi
  | succ n ih =>
    intro e he i hi
    rw [reachF] at hi
    by_cases h2 : e.id < 2
    · rw [if_pos h2] at hi
      simp at hi
    · rw [if_neg h2] at hi
      cases hnd : ns[e.id - 2]? with
      | none =>
        rw [hnd] at hi
        simp at hi
        omega
      | some nd =>
        rw [hnd] at hi
        simp only [Finset.mem_insert, Finset.mem_union] at hi
        rcases hi with rfl | hi | hi
        · exact le_refl _
        · by_cases ht : nd.t.id < e.id
          · rw [dif_pos ht] at hi
            have := ih nd.t (by omega) i hi
            omega
          · rw [dif_neg ht] at hi
            simp at hi
        · by_cases ht : nd.e.id < e.id
          · rw [dif_pos ht] at hi
            have := ih nd.e (by omega) i hi
            omega
          · rw [dif_neg ht] at hi
            simp at hi

theorem reachF_le (ns : List Node) (e : Edge) : ∀ i ∈ reachF ns e, i ≤ e.id :=
  reachF_le_aux ns e.id e (le_refl _)

@[simp] theorem notE_id (e : Edge) : (notE e).id = e.id := rfl

@[simp] theorem regularE_id (e : Edge) : (regularE e).id = e.id := rfl

@[simp] theorem notCondE_id (e : Edge) (b : Bool) : (notCondE e b).id = e.id := by
  cases b <;> rfl

/-- Children of every stored node point to earlier ids. -/
def NodesB (ns : List Node) : Prop :=
  ∀ i nd, ns[i]? = some nd → nd.t.id < i + 2 ∧ nd.e.id < i + 2

theorem NodesB_append_one (ns : List Node) (nd : Node)
    (hb : NodesB ns) (ht : nd.t.id < ns.length + 2) (he : nd.e.id < ns.length + 2) :
    NodesB (ns ++ [nd]) := by
  intro i x hx
  by_cases hi : i < ns.length
  · rw [List.getElem?_append_left hi] at hx
    exact hb i x hx
  · have hlen : i < (ns ++ [nd]).length := by
      by_contra hc
      rw [List.getElem?_eq_none (by omega)] at hx
      exact Option.noConfusion hx
    simp only [List.length_append, List.length_singleton] at hlen
    have hieq : i = ns.length := by omega
    subst hieq
    rw [List.getElem?_append_right (by omega)] at hx
    simp at hx
    subst hx
    exact ⟨ht, he⟩

/-- The children of the node read through any valid edge are valid. -/
theorem getN_children_valid (m : Mgr) (id : Nat) (hb : NodesB m.nodes)
    (hv : id < m.nodes.length + 2) :
    (getN m id).t.id < m.nodes.length + 2 ∧ (getN m id).e.id < m.nodes.length + 2 := by
  unfold getN
  cases hnd : m.nodes[id - 2]? with
  | none => simp [oneE]
  | some nd =>
    have := hb _ _ hnd
    simp only [Option.getD_some]
    omega

/-- `NodesB` is preserved by `reducedApplyCombine` when the proposed
children are valid, and the returned edge is valid. -/
theorem combine_pres_valid {m : Mgr} {idx : Nat} {t e : Edge}
    {ro : Option Edge} {m3 : Mgr} {compl : Bool}
    (h : reducedApplyCombine m idx t e = ((ro, m3), compl))
    (hb : NodesB m.nodes) (hvt : t.id < m.nodes.length + 2)
    (hve : e.id < m.nodes.length + 2) :
    NodesB m3.nodes ∧ m.nodes.length ≤ m3.nodes.length ∧
    (∀ r, ro = some r → r.id < m3.nodes.length + 2) := by
  obtain ⟨hp, hc, hf, hcase⟩ := reducedApplyCombine_shape _ _ _ _ _ _ _ h
  rcases hcase with ⟨hro, hm⟩ | ⟨r, hro, hrc, hr2, hrlt, hnodes⟩
  · subst hm
    exact ⟨hb, le_refl _, fun r hr => by rw [hro] at hr; exact Option.noConfusion hr⟩
  · have hnodes2 : NodesB m3.nodes ∧ m.nodes.length ≤ m3.nodes.length := by
      rcases hnodes with hsame | ⟨nd, happ, hid⟩
      · rw [hsame]
        exact ⟨hb, le_refl _⟩
      · constructor
        · rw [happ]
          -- the appended node's children come from the canonicalization of t, e
          unfold reducedApplyCombine at h
          split_ifs at h with h1 h2 <;>
          · rw [Prod.ext_iff] at h
            obtain ⟨hui, _⟩ := h
            obtain ⟨_, _, _, hcase2⟩ := cuddUniqueInter_cases _ _ _ _ _ _ hui
            rcases hcase2 with ⟨hn, _⟩ | ⟨r2, hro2, _, _, _, hget, hn⟩
            · rw [hro] at hn
              exact Option.noConfusion hn
            · rcases hn with hs | ⟨ha, _⟩
              · rw [happ] at hs
                exfalso
                have hl := congrArg List.length hs
                simp at hl
              · have hios := List.append_cancel_left (happ.symm.trans ha)
                simp only [List.cons.injEq, and_true] at hios
                subst hios
                exact NodesB_append_one _ _ hb (by simpa using hvt) (by simpa using hve)
        · rw [happ]
          simp
    exact ⟨hnodes2.1, hnodes2.2, fun r1 hr1 => by
      rw [hro] at hr1
      injection hr1 with hr1
      subst hr1
      exact hrlt⟩

/-- Validity of the returned edge and preservation of `NodesB` through
the node-budget reducer. -/
theorem reduce_pres_valid (fuel : Nat) :
    ∀ m f heu limit res m' c red,
      cuddBddReduceByNodeLimitRecur fuel m f heu limit = some (res, m', c, red) →
      NodesB m.nodes → ValidE m f →
      (∀ i ∈ m.flags, i < m.nodes.length + 2) →
      NodesB m'.nodes ∧ m.nodes.length ≤ m'.nodes.length ∧
        (∀ r, res = some r → ValidE m' r) := by
  induction fuel with
  | zero =>
    intro m f heu limit res m' c red h hb hv hfl
    simp [cuddBddReduceByNodeLimitRecur] at h
  | succ fuel ih =>
    intro m f heu limit res m' c red h hb hv hfl
    simp only [cuddBddReduceByNodeLimitRecur] at h
    split at h
    · obtain ⟨h1, h2, h3, h4⟩ := by
        simpa using h
      subst h2 h3
      refine ⟨hb, le_refl _, fun r hr => ?_⟩
      rw [← h1] at hr
      injection hr with hr
      rw [← hr]
      exact hv
    · split at h
      · obtain ⟨h1, h2, h3, h4⟩ := by
          simpa using h
        subst h2 h3
        refine ⟨hb, le_refl _, fun r hr => ?_⟩
        rw [← h1] at hr
        injection hr with hr
        rw [← hr]
        exact hv
      · split at h
        · obtain ⟨h1, h2, h3, h4⟩ := by
            simpa using h
          subst h2 h3
          refine ⟨hb, le_refl _, fun r hr => ?_⟩
          rw [← h1] at hr
          injection hr with hr
          rw [← hr]
          show (1 : Nat) < m.nodes.length + 2
          omega
        · have hch := getN_children_valid m (regularE f).id hb
            (by show f.id < m.nodes.length + 2; simpa [ValidE] using hv)
          by_cases hdec : heu m f none none < 0 <;>
            [simp only [if_pos hdec] at h; simp only [if_neg hdec] at h] <;>
          · split at h
            · exact absurd h (by simp)
            next m1 c0 r0 heq1 =>
              obtain ⟨h1, h2, h3, h4⟩ := by
                simpa using h
              subst h2 h3
              obtain ⟨hb1, hlen1, _⟩ := ih _ _ _ _ _ _ _ _ heq1 hb
                (by unfold ValidE
                    simp only [notCondE_id]
                    rcases hch with ⟨hc1, hc2⟩
                    omega) hfl
              exact ⟨hb1, hlen1, fun r hr => by simp [← h1] at hr⟩
            next a m1 c1 r1 heq1 =>
              obtain ⟨_, k1, hs1, _⟩ :=
                reduce_shape fuel m _ heu _ _ _ _ _ heq1 hfl
              have hfl1 : ∀ i ∈ m1.flags, i < m1.nodes.length + 2 :=
                MShape_flags_lt hs1 hfl
              obtain ⟨hb1, hlen1, hva⟩ := ih _ _ _ _ _ _ _ _ heq1 hb
                (by unfold ValidE
                    simp only [notCondE_id]
                    rcases hch with ⟨hc1, hc2⟩
                    omega) hfl
              have hva2 : ValidE m1 a := hva a rfl
              split at h
              · exact absurd h (by simp)
              next m2 c0 r0 heq2 =>
                obtain ⟨h1, h2, h3, h4⟩ := by
                  simpa using h
                subst h2 h3
                obtain ⟨hb2, hlen2, _⟩ := ih _ _ _ _ _ _ _ _ heq2 hb1
                  (by unfold ValidE
                      simp only [notCondE_id]
                      rcases hch with ⟨hc1, hc2⟩
                      omega) hfl1
                exact ⟨hb2, by omega, fun r hr => by simp [← h1] at hr⟩
              next b m2 c2 r2 heq2 =>
                obtain ⟨hb2, hlen2, hvb⟩ := ih _ _ _ _ _ _ _ _ heq2 hb1
                  (by unfold ValidE
                      simp only [notCondE_id]
                      rcases hch with ⟨hc1, hc2⟩
                      omega) hfl1
                have hvb2 : ValidE m2 b := hvb b rfl
                have hva3 : ValidE m2 a := by
                  unfold ValidE at hva2 ⊢
                  omega
                split at h
                · obtain ⟨h1, h2, h3, h4⟩ := by
                    simpa using h
                  subst h2 h3
                  refine ⟨hb2, by omega, fun r hr => ?_⟩
                  rw [← h1] at hr
                  injection hr with hr
                  rw [← hr]
                  first
                  | exact hva3
                  | exact hvb2
                · split at h
                  next m3 compl hcmb =>
                    obtain ⟨h1, h2, h3, h4⟩ := by
                      simpa using h
                    subst h2 h3
                    obtain ⟨hb3, hlen3, _⟩ := combine_pres_valid hcmb hb2
                      (by first
                          | exact hva3
                          | exact hvb2)
                      (by first
                          | exact hva3
                          | exact hvb2)
                    exact ⟨hb3, by omega, fun r hr => by simp [← h1] at hr⟩
                  next r m3 compl hcmb =>
                    obtain ⟨hb3, hlen3, hvr⟩ := combine_pres_valid hcmb hb2
                      (by first
                          | exact hva3
                          | exact hvb2)
                      (by first
                          | exact hva3
                          | exact hvb2)
                    have hvr2 := hvr r rfl
                    split at h
                    · obtain ⟨h1, h2, h3, h4⟩ := by
                        simpa using h
                      subst h2 h3
                      refine ⟨hb3, by omega, fun r1 hr1 => ?_⟩
                      rw [← h1] at hr1
                      injection hr1 with hr1
                      rw [← hr1]
                      unfold ValidE
                      cases compl <;> simpa using hvr2
                    · obtain ⟨h1, h2, h3, h4⟩ := by
                        simpa using h
                      subst h2 h3
                      refine ⟨hb3, by
                        show m.nodes.length ≤ m3.nodes.length
                        omega, fun r1 hr1 => ?_⟩
                      rw [← h1] at hr1
                      injection hr1 with hr1
                      rw [← hr1]
                      unfold ValidE
                      show (if compl = true then notE r else r).id <
                        (setFlag m3 r.id).nodes.length + 2
                      cases compl <;> simpa using hvr2

/-! ### Concrete managers and heuristics used as witnesses -/

/-- A deterministic heuristic that always chooses the then-branch. -/
def heuThen : Heu := fun _ _ _ _ => -1

/-- A small manager: node 2 is the variable `x1`, node 3 is `x0 ∧ x1`,
node 4 is the partial function `x0 ? 1 : ⊥`, node 5 is the variable
`x0`; identity variable order, no capacity bound, no flags set. -/
def mgrA : Mgr :=
  ⟨[⟨1, oneE, zeroE⟩, ⟨0, ⟨2, false⟩, zeroE⟩, ⟨0, oneE, unkE⟩,
    ⟨0, oneE, zeroE⟩], [], fun i => i, none⟩

/-- A manager with capacity 3 (already full): node 2 is `x1`, node 3 is
`x0 ? x1 : 1`, node 4 is `x0 ? 1 : ⊥`.  Any fresh allocation fails. -/
def mgrB : Mgr :=
  ⟨[⟨1, oneE, zeroE⟩, ⟨0, ⟨2, false⟩, oneE⟩, ⟨0, oneE, unkE⟩],
   [], fun i => i, some 3⟩

/-- Decidable check entailing `NodesB`. -/
def nodesBCheck (ns : List Node) : Bool :=
  (List.range ns.length).all fun i =>
    match ns[i]? with
    | some nd => decide (nd.t.id < i + 2) && decide (nd.e.id < i + 2)
    | none => true

theorem NodesB_of_check (ns : List Node) (h : nodesBCheck ns = true) :
    NodesB ns := by
  intro i nd hnd
  have hi : i < ns.length := by
    by_contra hc
    rw [List.getElem?_eq_none (by omega)] at hnd
    exact Option.noConfusion hnd
  have := (List.all_eq_true.mp h) i (List.mem_range.mpr hi)
  rw [hnd] at this
  simpa using this

/-! ### Claim C9: the budget subtraction cannot underflow -/

/-- The scenario claim C9 asserts to exist: some input edge, heuristic
and parent budget `limit ≥ 1` (with the `MAXREF` flags on real nodes,
as in any reachable manager state) whose first recursive call inside
`cuddBddReduceByNodeLimitRecur` — made with budget `limit - 1` — bills
at least `limit` nodes, so that the unsigned `limit - 1 -
*nodesConsumed` passed to the second call wraps around. -/
def ReduceFirstRecursionOverbills : Prop :=
  ∃ (fuel : Nat) (m : Mgr) (f : Edge) (heu : Heu) (limit : Nat)
    (res : Option Edge) (m' : Mgr) (c : Nat) (red : Bool),
    1 ≤ limit ∧ (∀ i ∈ m.flags, i < m.nodes.length + 2) ∧
    cuddBddReduceByNodeLimitRecur fuel m f heu (limit - 1) =
      some (res, m', c, red) ∧
    limit ≤ c

/-- Claim C9 is false: no input can make the first recursion bill
`limit` or more nodes, because a call of
`cuddBddReduceByNodeLimitRecur` never bills more than its budget. -/
theorem reduce_underflow_impossible : ReduceFirstRecursionOverbills ↔ False := by
  constructor
  · rintro ⟨fuel, m, f, heu, limit, res, m', c, red, hlim, hfl, hrun, hge⟩
    obtain ⟨hc, -⟩ := reduce_shape fuel m f heu (limit - 1) res m' c red hrun hfl
    omega
  · exact False.elim

/-- Claim C9 as amended: after the first recursive call (budget
`limit - 1`) of `cuddBddReduceByNodeLimitRecur` the billed count is at
most `limit - 1`, so the C expression `limit - 1 - *nodesConsumed` is
computed without unsigned wrap-around. -/
theorem reduce_second_budget_no_wrap (fuel : Nat) (m : Mgr) (f : Edge)
    (heu : Heu) (limit : Nat) (res : Option Edge) (m' : Mgr) (c : Nat)
    (red : Bool) (hlim : 1 ≤ limit)
    (hfl : ∀ i ∈ m.flags, i < m.nodes.length + 2)
    (h : cuddBddReduceByNodeLimitRecur fuel m f heu (limit - 1) =
      some (res, m', c, red)) :
    c ≤ limit - 1 ∧ wsub (limit - 1) c = limit - 1 - c := by
  obtain ⟨hc, -⟩ := reduce_shape fuel m f heu (limit - 1) res m' c red h hfl
  exact ⟨hc, wsub_of_le _ _ hc⟩

theorem reduce_second_budget_no_wrap_witness :
    2 ≤ 3 - 1 ∧ wsub (3 - 1) 2 = 3 - 1 - 2 :=
  reduce_second_budget_no_wrap 6 mgrA ⟨3, false⟩ heuThen 3
    (some ⟨3, false⟩) ⟨mgrA.nodes, [3, 2], mgrA.perm, none⟩ 2 false
    (by omega) (by simp [mgrA]) (by rfl)

/-! ### Claim C3: the budget bounds the newly interned nodes -/

/-- Claim C3: the number of internal nodes reachable from the edge
returned by `Cudd_BddReduceByNodeLimit` that were newly interned by the
call (their ids lie beyond the table the call started from) is at most
the budget `limit`. -/
theorem reduceByNodeLimit_budget_bound (fuel : Nat) (m : Mgr) (f r : Edge)
    (heu : Heu) (limit : Nat) (m' : Mgr) (c : Nat) (red : Bool)
    (hb : NodesB m.nodes) (hv : ValidE m f)
    (hfl : ∀ i ∈ m.flags, i < m.nodes.length + 2)
    (h : Cudd_BddReduceByNodeLimit fuel m f heu limit =
      some (some r, m', c, red)) :
    ((reachF m'.nodes r).filter (fun i => m.nodes.length + 2 ≤ i)).card ≤
      limit := by
  simp only [Cudd_BddReduceByNodeLimit] at h
  split at h
  · exact absurd h (by simp)
  next res m1 c0 red0 heq =>
    cases res with
    | none => simp at h
    | some r0 =>
      simp only [Option.some.injEq, Prod.mk.injEq] at h
      obtain ⟨hr0, hm, hc, hred⟩ := h
      subst hr0
      subst hm
      obtain ⟨hcle, k, hshape, hk⟩ :=
        reduce_shape fuel m f heu limit (some r0) m1 c0 red0 heq hfl
      have hkc : k = c0 := hk r0 rfl
      obtain ⟨-, -, hvr⟩ := reduce_pres_valid fuel m f heu limit (some r0) m1
        c0 red0 heq hb hv hfl
      have hvr2 : r0.id < m1.nodes.length + 2 := hvr r0 rfl
      obtain ⟨-, -, ext, nf, hnodes, -, -, -, -, hextle, hnf⟩ := hshape
      dsimp only
      have hsub : ((reachF m1.nodes r0).filter
          (fun i => m.nodes.length + 2 ≤ i)) ⊆
          Finset.Ico (m.nodes.length + 2) (m1.nodes.length + 2) := by
        intro i hi
        simp only [Finset.mem_filter] at hi
        have hle := reachF_le m1.nodes r0 i hi.1
        simp only [Finset.mem_Ico]
        omega
      have hcard := Finset.card_le_card hsub
      rw [Nat.card_Ico] at hcard
      have hlen : m1.nodes.length = m.nodes.length + ext.length := by
        rw [hnodes]
        simp
      omega

theorem reduceByNodeLimit_budget_bound_witness :
    ((reachF (⟨mgrA.nodes, [], mgrA.perm, none⟩ : Mgr).nodes ⟨3, false⟩).filter
      (fun i => mgrA.nodes.length + 2 ≤ i)).card ≤ 10 :=
  reduceByNodeLimit_budget_bound 20 mgrA ⟨3, false⟩ ⟨3, false⟩ heuThen 10
    ⟨mgrA.nodes, [], mgrA.perm, none⟩ 2 false
    (NodesB_of_check _ (by decide)) (by simp [ValidE, mgrA])
    (by simp [mgrA]) (by rfl)

/-! ### Claim C7: when the memo cache is consulted -/

/-- Claim C7 is false on the code: with refcounts `(1, 2)` the And
engine does consult the cache (its guard `F->ref != 1 || G->ref != 1`
holds), and the Xor and Ite engines consult it even when every operand
has refcount 1 — while the claim allows a lookup only when neither
operand has refcount 1. -/
theorem cacheGuard_counterexample :
    andCacheLookupGuard 1 2 = true ∧ xorCacheLookupGuard 1 1 = true ∧
      iteCacheLookupGuard 1 1 1 = true := by
  exact ⟨by decide, rfl, rfl⟩

/-- Claim C7 as amended: `cuddBddAndReducedRecur` skips the cache
lookup exactly when both operands have refcount 1 (it consults the
cache when at least one refcount differs from 1), and
`cuddBddXorReducedRecur` and `cuddBddIteReducedRecur` consult the
cache unconditionally. -/
theorem cacheGuard_characterization :
    (∀ refF refG : Nat,
      andCacheLookupGuard refF refG = !(refF == 1 && refG == 1)) ∧
    (∀ refF refG : Nat, xorCacheLookupGuard refF refG = true) ∧
    (∀ refF refG refH : Nat, iteCacheLookupGuard refF refG refH = true) := by
  refine ⟨fun refF refG => ?_, fun _ _ => rfl, fun _ _ _ => rfl⟩
  unfold andCacheLookupGuard
  cases h1 : refF == 1 <;> cases h2 : refG == 1 <;>
    simp_all [Nat.beq_eq_true_eq, ne_eq]

/-! ### Claim C4: MAXREF marks surviving a failed top-level call -/

/-- Claim C4 fails on the code: on manager `mgrB` (capacity 3, full),
`Cudd_bddAndReduced` of `x0 ? x1 : 1` and `x0 ? 1 : ⊥` with budget 5
first bills node 2 (setting its `MAXREF` flag), then the allocation at
the combining step fails, `NULL` propagates, and the top-level sweep
`clearMaxrefFlagRecur(NULL)` clears nothing: after the wrapper returns,
node 2 still carries `MAXREF`. -/
theorem andReduced_failure_leaves_maxref :
    (Cudd_bddAndReduced 20 mgrB ⟨3, false⟩ ⟨4, false⟩ heuThen 5).map
      (fun p => (p.1, p.2.1.flags)) = some (none, [2]) := by
  rfl

/-! ### Claim C2, counterexample part -/

/-- Claim C2 is false as stated: `Cudd_BddReduceByValuation` tests
`bdd` for constancy before the `val == 0` rule, so with `bdd = 1` and
`val = 0` it returns `1`, although `val` evaluates to `0` everywhere
and the claim demands `⊥`. -/
theorem reduceByValuation_const_before_zero :
    (Cudd_BddReduceByValuation 10 mgrA oneE zeroE).map Prod.fst =
        some oneE ∧
      evalE mgrA.nodes (fun _ => true) zeroE = V3.zero ∧
      evalE mgrA.nodes (fun _ => true) oneE = V3.one ∧
      oneE ≠ unkE := by
  refine ⟨rfl, ?_, ?_, by decide⟩
  · simp [evalE, evalN, zeroE, neg3]
  · simp [evalE, evalN, oneE]

/-! ### Claim C1, counterexample part -/

/-- Claim C1 is false for `IteReduced`: on `ITE(x0, x1, ⊥)` the code
reaches the `g == unknown || h == unknown` test (line 743) and returns
`⊥` with `reduced_flag` still false, yet at the assignment making both
variables true the Kleene if-then-else of the operands is `1`, not
`⊥`. -/
theorem iteReduced_flag_false_not_kleene :
    (Cudd_bddIteReduced 20 mgrA ⟨5, false⟩ ⟨2, false⟩ unkE heuThen 100).map
        (fun p => (p.1, p.2.2.2)) = some (some unkE, false) ∧
      evalE mgrA.nodes (fun _ => true) unkE = V3.bot ∧
      ite3 (evalE mgrA.nodes (fun _ => true) ⟨5, false⟩)
        (evalE mgrA.nodes (fun _ => true) ⟨2, false⟩)
        (evalE mgrA.nodes (fun _ => true) unkE) = V3.one := by
  refine ⟨rfl, by simp [evalE, evalN, unkE], ?_⟩
  simp [evalE, evalN, mgrA, oneE, zeroE, unkE, ite3, and3, or3, neg3]

/-! ### Claim C5, counterexample part -/

/-- Claim C5 is false: for `f = (x0 ? 1 : ⊥)` and `g = ¬f` (same node,
opposite polarity), `Cudd_bddAndReduced` returns `¬f` — not the
constant `0` — and indeed its denotation at `x0 = 0` is `⊥`, so no
terminal rule `f == ¬g → 0` is applied (none exists in the code). -/
theorem andReduced_complement_not_zero :
    (Cudd_bddAndReduced 20 mgrA ⟨4, false⟩ ⟨4, true⟩ heuThen 100).map
        (fun p => p.1) = some (some ⟨4, true⟩) ∧
      (⟨4, true⟩ : Edge) ≠ zeroE ∧
      evalE mgrA.nodes (fun _ => false) ⟨4, true⟩ = V3.bot := by
  refine ⟨rfl, by decide, ?_⟩
  simp [evalE, evalN, mgrA, oneE, unkE, neg3]

/-! ### Claim C6, counterexample part -/

/-- Claim C6 is false: for `f = (x0 ? 1 : ⊥)`, `XorReduced(f, f)`
returns `¬f` (not the constant `0`) and `XorReduced(f, ¬f)` returns
`f` (not the constant `1`): the code has no `x ⊕ x` or `x ⊕ ¬x`
terminal rules, and on diagrams containing `⊥` the results are not
constants. -/
theorem xorReduced_self_not_constant :
    (Cudd_bddXorReduced 20 mgrA ⟨4, false⟩ ⟨4, false⟩ heuThen 100).map
        (fun p => p.1) = some (some ⟨4, true⟩) ∧
      (⟨4, true⟩ : Edge) ≠ zeroE ∧
      (Cudd_bddXorReduced 20 mgrA ⟨4, false⟩ ⟨4, true⟩ heuThen 100).map
        (fun p => p.1) = some (some ⟨4, false⟩) ∧
      (⟨4, false⟩ : Edge) ≠ oneE := by
  exact ⟨rfl, by decide, rfl, by decide⟩

/-! ### Diagrams that do not reach the unknown terminal -/

/-- The regular node `id` does not reach the `⊥` terminal (dangling
references count as reaching it, conservatively). -/
def botFreeN (ns : List Node) (id : Nat) : Bool :=
  if id = 0 then true
  else if id = 1 then false
  else
    match ns[id - 2]? with
    | none => false
    | some nd =>
      (if h : nd.t.id < id then botFreeN ns nd.t.id else false) &&
      (if h : nd.e.id < id then botFreeN ns nd.e.id else false)
termination_by id
decreasing_by
  all_goals exact h

theorem botFreeN_zero (ns : List Node) : botFreeN ns 0 = true := by
  rw [botFreeN]
  simp

theorem botFreeN_ne_one (ns : List Node) (id : Nat)
    (h : botFreeN ns id = true) : id ≠ 1 := by
  intro hid
  subst hid
  rw [botFreeN] at h
  simp at h

theorem botFreeN_node (ns : List Node) (id : Nat) (nd : Node)
    (h2 : 2 ≤ id) (hnd : ns[id - 2]? = some nd)
    (ht : nd.t.id < id) (he : nd.e.id < id) :
    botFreeN ns id = (botFreeN ns nd.t.id && botFreeN ns nd.e.id) := by
  rw [botFreeN]
  have h0 : ¬ id = 0 := by omega
  have h1 : ¬ id = 1 := by omega
  simp only [h0, if_false, h1, hnd, dif_pos ht, dif_pos he]

/-- Constant-input computation of the node-budget reducer. -/
theorem reduce_const (fuel : Nat) (m : Mgr) (e : Edge) (heu : Heu)
    (limit : Nat) (res : Option Edge) (m' : Mgr) (c : Nat) (red : Bool)
    (hc : e = oneE ∨ e = zeroE ∨ e = unkE)
    (h : cuddBddReduceByNodeLimitRecur fuel m e heu limit =
      some (res, m', c, red)) :
    res = some e ∧ m' = m ∧ c = 0 ∧ red = false := by
  cases fuel with
  | zero => simp [cuddBddReduceByNodeLimitRecur] at h
  | succ fuel =>
    rw [cuddBddReduceByNodeLimitRecur] at h
    rw [if_pos hc] at h
    simp only [Option.some.injEq, Prod.mk.injEq] at h
    exact ⟨h.1.symm, h.2.1.symm, h.2.2.1.symm, h.2.2.2.symm⟩

theorem getN_mem (m : Mgr) (id : Nat) (h2 : 2 ≤ id)
    (hv : id < m.nodes.length + 2) :
    m.nodes[id - 2]? = some (getN m id) := by
  have hlt : id - 2 < m.nodes.length := by omega
  unfold getN
  rw [List.getElem?_eq_getElem hlt]
  simp

@[simp] theorem notCondE_false (e : Edge) : notCondE e false = e := rfl

@[simp] theorem notCondE_true (e : Edge) : notCondE e true = notE e := rfl

@[simp] theorem notE_c (e : Edge) : (notE e).c = !e.c := rfl

@[simp] theorem regularE_c (e : Edge) : (regularE e).c = false := rfl

theorem edge_eq_iff (a b : Edge) : a = b ↔ a.id = b.id ∧ a.c = b.c := by
  rcases a with ⟨ai, ac⟩
  rcases b with ⟨bi, bc⟩
  simp

theorem ne_unkE_of_ne_one (e : Edge) (h : e.id ≠ 1) : (e != unkE) = true := by
  rcases e with ⟨ei, ec⟩
  simp_all [unkE, bne]

theorem pointerOrder_compl (f g : Edge) (hid : f.id = g.id) (hc : f.c ≠ g.c) :
    pointerOrder f g = (regularE f, notE (regularE f)) ∧
      (f = regularE f ∨ f = notE (regularE f)) := by
  rcases f with ⟨fi, fc⟩
  rcases g with ⟨gi, gc⟩
  simp only [Edge.mk.injEq] at hid
  subst hid
  cases fc <;> cases gc <;> simp_all [pointerOrder, ptrVal, regularE, notE]

theorem andCofactors_compl (m : Mgr) (x : Edge) (hx : x.c = false)
    (h2 : 2 ≤ x.id)
    (ht1 : (getN m x.id).t.id ≠ 1) (he1 : (getN m x.id).e.id ≠ 1) :
    andCofactors m x (notE x) =
      ((getN m x.id).idx,
       ((getN m x.id).t, (getN m x.id).e),
       (notE (getN m x.id).t, notE (getN m x.id).e)) := by
  unfold andCofactors
  have hne : ¬ (regularE x = unkE) := by
    intro hcon
    have hcid := congrArg Edge.id hcon
    simp [unkE] at hcid
    omega
  have hne2 : ¬ (regularE (notE x) = unkE) := by
    intro hcon
    have hcid := congrArg Edge.id hcon
    simp [unkE] at hcid
    omega
  simp only [hne, hne2, if_neg, notE_id, le_refl, if_pos, hx, notE_c,
    Bool.not_false, Bool.false_and, Bool.true_and, notCondE_false,
    ne_unkE_of_ne_one _ ht1, ne_unkE_of_ne_one _ he1, notCondE_true]


set_option maxHeartbeats 2000000 in
theorem and_compl_zero (fuel : Nat) :
    ∀ m f g heu limit res m' c red,
      cuddBddAndReducedRecur fuel m f g heu limit = some (res, m', c, red) →
      NodesB m.nodes → ValidE m f →
      botFreeN m.nodes f.id = true →
      f.id = g.id → f.c ≠ g.c →
      res = some zeroE ∧ m' = m ∧ c = 0 ∧ red = false := by
  induction fuel with
  | zero =>
    intro m f g heu limit res m' c red h hb hv hbf hid hcne
    exact Option.noConfusion h
  | succ fuel ih =>
    intro m f g heu limit res m' c red h hb hv hbf hid hcne
    simp only [cuddBddAndReducedRecur] at h
    split at h
    · next h1 =>
      rw [h1.2] at hcne
      exact absurd rfl hcne
    · next nh1 =>
      split at h
      · next h2 =>
        exfalso
        have hne1 := botFreeN_ne_one m.nodes f.id hbf
        have hcid := congrArg Edge.id h2.2
        simp [unkE] at hcid
        exact hne1 hcid
      · next nh2 =>
        split at h
        · next h3 =>
          have hg : g = zeroE := by
            rw [edge_eq_iff]
            have hf1 : f = oneE := h3.2
            rw [hf1] at hid hcne
            refine ⟨by simpa [oneE, zeroE] using hid.symm, ?_⟩
            cases hgc : g.c
            · exact absurd (by simp [oneE, hgc]) hcne
            · rfl
          subst hg
          exact reduce_const fuel m zeroE heu limit res m' c red
            (Or.inr (Or.inl rfl)) h
        · next nh3 =>
          split at h
          · next h4 =>
            have hf : f = zeroE := by
              rw [edge_eq_iff]
              have hcid := congrArg Edge.id h4
              simp [oneE] at hcid
              refine ⟨by simpa [zeroE] using hcid, ?_⟩
              cases hfc : f.c
              · exfalso
                apply nh3
                refine ⟨h4, ?_⟩
                rw [edge_eq_iff]
                exact ⟨by simpa [oneE] using hcid, by simp [oneE, hfc]⟩
              · rfl
            subst hf
            simp only [Option.some.injEq, Prod.mk.injEq] at h
            exact ⟨by rw [← h.1], h.2.1.symm, h.2.2.1.symm, h.2.2.2.symm⟩
          · next nh4 =>
            split at h
            · next h5 =>
              have hf : f = zeroE := by
                rw [edge_eq_iff]
                have hg1 : g = oneE := h5.2
                rw [hg1] at hid hcne
                refine ⟨by simpa [oneE, zeroE] using hid, ?_⟩
                cases hfc : f.c
                · exact absurd (by simp [oneE, hfc]) hcne
                · rfl
              subst hf
              exact reduce_const fuel m zeroE heu limit res m' c red
                (Or.inr (Or.inl rfl)) h
            · next nh5 =>
              split at h
              · next h6 =>
                exfalso
                have hgz : g = zeroE := by
                  rw [edge_eq_iff]
                  have hcid := congrArg Edge.id h6
                  simp [oneE] at hcid
                  refine ⟨by simpa [zeroE] using hcid, ?_⟩
                  cases hgc : g.c
                  · exact absurd (by rw [edge_eq_iff]; exact ⟨by simpa [oneE] using hcid, by simp [oneE, hgc]⟩) (fun hcon => nh5 ⟨h6, hcon⟩)
                  · rfl
                apply nh4
                rw [edge_eq_iff]
                rw [hgz] at hid hcne
                simp only [zeroE] at hid hcne
                refine ⟨by simpa [regularE, oneE] using hid, by simp [regularE, oneE]⟩
              · next nh6 =>
                have hfid2 : 2 ≤ f.id := by
                  have hne1 := botFreeN_ne_one m.nodes f.id hbf
                  rcases Nat.lt_or_ge f.id 2 with hlt | hge
                  · exfalso
                    have hf0 : f.id = 0 := by omega
                    apply nh4
                    rw [edge_eq_iff]
                    simp [regularE, oneE, hf0]
                  · exact hge
                obtain ⟨hpo, hfreg⟩ := pointerOrder_compl f g hid hcne
                rw [hpo] at h
                have hnd := getN_mem m f.id hfid2 hv
                have hchlt := hb (f.id - 2) (getN m f.id) hnd
                have hbfch : botFreeN m.nodes (getN m f.id).t.id = true ∧
                    botFreeN m.nodes (getN m f.id).e.id = true := by
                  have hbfn := botFreeN_node m.nodes f.id (getN m f.id) hfid2 hnd
                    (by omega) (by omega)
                  rw [hbfn] at hbf
                  simp only [Bool.and_eq_true] at hbf
                  exact hbf
                have hco := andCofactors_compl m (regularE f) (by simp) (by simpa using hfid2)
                  (by simpa using botFreeN_ne_one m.nodes _ hbfch.1)
                  (by simpa using botFreeN_ne_one m.nodes _ hbfch.2)
                simp only [hco, regularE_id] at h
                have hvt : ValidE m (getN m f.id).t := by
                  have h1 := hchlt.1
                  have h2 : f.id < m.nodes.length + 2 := hv
                  simp only [ValidE]
                  omega
                have hve : ValidE m (getN m f.id).e := by
                  have h1 := hchlt.2
                  have h2 : f.id < m.nodes.length + 2 := hv
                  simp only [ValidE]
                  omega
                by_cases hdec : heu m (regularE f) (some (notE (regularE f))) none < 0
                · simp only [if_pos hdec] at h
                  cases hc1 : cuddBddAndReducedRecur fuel m (getN m f.id).t
                      (notE (getN m f.id).t) heu (DD_MIN_NODE_LIMIT limit) with
                  | none => rw [hc1] at h; exact Option.noConfusion h
                  | some v1 =>
                    obtain ⟨res1, m1, c1, r1⟩ := v1
                    have h1 := ih m (getN m f.id).t (notE (getN m f.id).t) heu
                      (DD_MIN_NODE_LIMIT limit) res1 m1 c1 r1 hc1 hb hvt hbfch.1
                      (by simp) (by cases hct : (getN m f.id).t.c <;> simp [hct])
                    obtain ⟨hr1z, hm1, hc1z, hr1f⟩ := h1
                    subst hr1z hc1z hr1f
                    rw [hm1] at hc1
                    rw [hc1] at h
                    simp only [wsub_of_le limit 0 (Nat.zero_le limit), Nat.sub_zero] at h
                    cases hc2 : cuddBddAndReducedRecur fuel m (getN m f.id).e
                        (notE (getN m f.id).e) heu (DD_MIN_NODE_LIMIT limit) with
                    | none => rw [hc2] at h; exact Option.noConfusion h
                    | some v2 =>
                      obtain ⟨res2, m2, c2, r2⟩ := v2
                      have h2 := ih m (getN m f.id).e (notE (getN m f.id).e) heu
                        (DD_MIN_NODE_LIMIT limit) res2 m2 c2 r2 hc2 hb hve hbfch.2
                        (by simp) (by cases hce : (getN m f.id).e.c <;> simp [hce])
                      obtain ⟨hr2z, hm2, hc2z, hr2f⟩ := h2
                      subst hr2z hc2z hr2f
                      rw [hm2] at hc2
                      rw [hc2] at h
                      simp only [eq_self_iff_true, if_true, Option.some.injEq,
                        Prod.mk.injEq] at h
                      exact ⟨by rw [← h.1], h.2.1.symm, h.2.2.1.symm, h.2.2.2.symm⟩
                · simp only [if_neg hdec] at h
                  cases hc1 : cuddBddAndReducedRecur fuel m (getN m f.id).e
                      (notE (getN m f.id).e) heu (DD_MIN_NODE_LIMIT limit) with
                  | none => rw [hc1] at h; exact Option.noConfusion h
                  | some v1 =>
                    obtain ⟨res1, m1, c1, r1⟩ := v1
                    have h1 := ih m (getN m f.id).e (notE (getN m f.id).e) heu
                      (DD_MIN_NODE_LIMIT limit) res1 m1 c1 r1 hc1 hb hve hbfch.2
                      (by simp) (by cases hce : (getN m f.id).e.c <;> simp [hce])
                    obtain ⟨hr1z, hm1, hc1z, hr1f⟩ := h1
                    subst hr1z hc1z hr1f
                    rw [hm1] at hc1
                    rw [hc1] at h
                    simp only [wsub_of_le limit 0 (Nat.zero_le limit), Nat.sub_zero] at h
                    cases hc2 : cuddBddAndReducedRecur fuel m (getN m f.id).t
                        (notE (getN m f.id).t) heu (DD_MIN_NODE_LIMIT limit) with
                    | none => rw [hc2] at h; exact Option.noConfusion h
                    | some v2 =>
                      obtain ⟨res2, m2, c2, r2⟩ := v2
                      have h2 := ih m (getN m f.id).t (notE (getN m f.id).t) heu
                        (DD_MIN_NODE_LIMIT limit) res2 m2 c2 r2 hc2 hb hvt hbfch.1
                        (by simp) (by cases hct : (getN m f.id).t.c <;> simp [hct])
                      obtain ⟨hr2z, hm2, hc2z, hr2f⟩ := h2
                      subst hr2z hc2z hr2f
                      rw [hm2] at hc2
                      rw [hc2] at h
                      simp only [eq_self_iff_true, if_true, Option.some.injEq,
                        Prod.mk.injEq] at h
                      exact ⟨by rw [← h.1], h.2.1.symm, h.2.2.1.symm, h.2.2.2.symm⟩

/-- Fuelled executable check entailing `botFreeN`. -/
def botFreeChk (ns : List Node) : Nat → Nat → Bool
  | 0, _ => false
  | fuel + 1, id =>
    if id = 0 then true
    else if id = 1 then false
    else
      match ns[id - 2]? with
      | none => false
      | some nd =>
        (decide (nd.t.id < id) && botFreeChk ns fuel nd.t.id) &&
        (decide (nd.e.id < id) && botFreeChk ns fuel nd.e.id)

theorem botFreeN_of_chk (ns : List Node) :
    ∀ fuel id, botFreeChk ns fuel id = true → botFreeN ns id = true := by
  intro fuel
  induction fuel with
  | zero =>
    intro id h
    exact absurd h (by simp [botFreeChk])
  | succ fuel ih =>
    intro id h
    rw [botFreeChk] at h
    rw [botFreeN]
    by_cases h0 : id = 0
    · simp [h0]
    · rw [if_neg h0] at h ⊢
      by_cases h1 : id = 1
      · rw [if_pos h1] at h
        exact absurd h (by simp)
      · rw [if_neg h1] at h ⊢
        cases hnd : ns[id - 2]? with
        | none =>
          rw [hnd] at h
          simp at h
        | some nd =>
          rw [hnd] at h
          simp only [Bool.and_eq_true, decide_eq_true_eq] at h
          obtain ⟨⟨hlt1, hb1⟩, hlt2, hb2⟩ := h
          simp only [dif_pos hlt1, dif_pos hlt2, ih _ hb1, ih _ hb2,
            Bool.and_self]

/-- Claim C5 (amended): for complementary operands `f` and `g` — the
same node with opposite polarity — whose diagram does not reach `⊥`,
`Cudd_bddAndReduced` returns the constant `0`, leaves the manager
unchanged and bills no node.  The result is obtained by full recursion
down to the leaves, not by a terminal rule: the source has no
`f == Cudd_Not(g)` terminal test, and on diagrams that do reach `⊥`
the result is not `0` (see `andReduced_complement_not_zero`). -/
theorem andReduced_complement_zero (fuel : Nat) (m : Mgr) (f g : Edge)
    (heu : Heu) (limit : Nat) (res : Option Edge) (m' : Mgr) (c : Nat)
    (red : Bool)
    (h : Cudd_bddAndReduced fuel m f g heu limit = some (res, m', c, red))
    (hb : NodesB m.nodes) (hv : ValidE m f)
    (hbf : botFreeN m.nodes f.id = true)
    (hid : f.id = g.id) (hcne : f.c ≠ g.c) :
    res = some zeroE ∧ m' = m ∧ c = 0 ∧ red = false := by
  unfold Cudd_bddAndReduced at h
  cases hr : cuddBddAndReducedRecur fuel m f g heu limit with
  | none => rw [hr] at h; exact Option.noConfusion h
  | some v =>
    obtain ⟨res1, m1, c1, red1⟩ := v
    obtain ⟨h1, h2, h3, h4⟩ := and_compl_zero fuel m f g heu limit res1 m1
      c1 red1 hr hb hv hbf hid hcne
    subst h1 h3 h4
    rw [h2] at hr
    rw [hr] at h
    have hcl : clearMaxref m.nodes (m.flags.length + 1) m.flags zeroE =
        m.flags := by
      rw [clearMaxref]
      simp [zeroE]
    simp only [hcl] at h
    simp only [Option.some.injEq, Prod.mk.injEq] at h
    exact ⟨h.1.symm, h.2.1.symm, h.2.2.1.symm, h.2.2.2.symm⟩

theorem andReduced_complement_zero_witness :
    some zeroE = some zeroE ∧ mgrA = mgrA ∧ 0 = 0 ∧ false = false :=
  andReduced_complement_zero 5 mgrA ⟨3, false⟩ ⟨3, true⟩ heuThen 100
    (some zeroE) mgrA 0 false rfl
    (NodesB_of_check mgrA.nodes (by decide))
    (by decide : (3 : Nat) < mgrA.nodes.length + 2)
    (botFreeN_of_chk mgrA.nodes 5 3 (by decide))
    rfl (by decide)

theorem xorCofactors_self (m : Mgr) (x : Edge) (hx : x.c = false) :
    xorCofactors m x x =
      ((getN m x.id).idx,
       ((getN m x.id).t, (getN m x.id).e),
       ((getN m x.id).t, (getN m x.id).e)) := by
  unfold xorCofactors
  simp [hx]

theorem xorCofactors_compl (m : Mgr) (x : Edge) (hx : x.c = false)
    (ht1 : (getN m x.id).t.id ≠ 1) (he1 : (getN m x.id).e.id ≠ 1) :
    xorCofactors m x (notE x) =
      ((getN m x.id).idx,
       ((getN m x.id).t, (getN m x.id).e),
       (notE (getN m x.id).t, notE (getN m x.id).e)) := by
  unfold xorCofactors
  simp [hx, ne_unkE_of_ne_one _ ht1, ne_unkE_of_ne_one _ he1]

set_option maxHeartbeats 2000000 in
theorem xor_self_zero (fuel : Nat) :
    ∀ m f heu limit res m' c red,
      cuddBddXorReducedRecur fuel m f f heu limit = some (res, m', c, red) →
      NodesB m.nodes → ValidE m f →
      botFreeN m.nodes f.id = true →
      res = some zeroE ∧ m' = m ∧ c = 0 ∧ red = false := by
  induction fuel with
  | zero =>
    intro m f heu limit res m' c red h hb hv hbf
    exact Option.noConfusion h
  | succ fuel ih =>
    intro m f heu limit res m' c red h hb hv hbf
    have hne1 := botFreeN_ne_one m.nodes f.id hbf
    have hpo : pointerOrder f f = (f, f) := by simp [pointerOrder]
    simp only [cuddBddXorReducedRecur, hpo] at h
    split at h
    · next h1 =>
      exfalso
      rcases h1 with h1 | h1 <;>
      · have hcid := congrArg Edge.id h1
        simp [unkE] at hcid
        exact hne1 hcid
    · next nh1 =>
      split at h
      · next h2 =>
        obtain ⟨ha, hm, hc, hr⟩ := reduce_const fuel m f heu limit res m' c red
          (Or.inr (Or.inl h2)) h
        exact ⟨by rw [ha, h2], hm, hc, hr⟩
      · next nh2 =>
        split at h
        · next h3 =>
          rw [h3] at h
          obtain ⟨ha, hm, hc, hr⟩ := reduce_const fuel m (notE oneE) heu limit
            res m' c red (Or.inr (Or.inl rfl)) h
          exact ⟨ha.trans rfl, hm, hc, hr⟩
        · next nh3 =>
          have hfid2 : 2 ≤ f.id := by
            rcases Nat.lt_or_ge f.id 2 with hlt | hge
            · exfalso
              have hf0 : f.id = 0 := by omega
              cases hfc : f.c
              · exact nh3 (by rw [edge_eq_iff]; simp [oneE, hf0, hfc])
              · exact nh2 (by rw [edge_eq_iff]; simp [zeroE, hf0, hfc])
            · exact hge
          have hnd := getN_mem m f.id hfid2 hv
          have hchlt := hb (f.id - 2) (getN m f.id) hnd
          have hbfch : botFreeN m.nodes (getN m f.id).t.id = true ∧
              botFreeN m.nodes (getN m f.id).e.id = true := by
            have hbfn := botFreeN_node m.nodes f.id (getN m f.id) hfid2 hnd
              (by omega) (by omega)
            rw [hbfn] at hbf
            simp only [Bool.and_eq_true] at hbf
            exact hbf
          have hvt : ValidE m (getN m f.id).t := by
            have h1 := hchlt.1
            have h2 : f.id < m.nodes.length + 2 := hv
            simp only [ValidE]
            omega
          have hve : ValidE m (getN m f.id).e := by
            have h1 := hchlt.2
            have h2 : f.id < m.nodes.length + 2 := hv
            simp only [ValidE]
            omega
          cases hfc : f.c with
          | true =>
            simp only [hfc, eq_self_iff_true, if_true] at h
            split at h
            · next h4 =>
              exfalso
              apply nh2
              rw [← notE_notE f, h4]
              rfl
            · next nh4 =>
              have hco := xorCofactors_self m (notE f) (by simp [hfc])
              simp only [hco, notE_id] at h
              by_cases hdec : heu m (notE f) (some (notE f)) none < 0
              · simp only [if_pos hdec] at h
                cases hc1 : cuddBddXorReducedRecur fuel m (getN m f.id).t
                    (getN m f.id).t heu (DD_MIN_NODE_LIMIT limit) with
                | none => rw [hc1] at h; exact Option.noConfusion h
                | some v1 =>
                  obtain ⟨res1, m1, c1, r1⟩ := v1
                  have h1 := ih m (getN m f.id).t heu (DD_MIN_NODE_LIMIT limit)
                    res1 m1 c1 r1 hc1 hb hvt hbfch.1
                  obtain ⟨hr1z, hm1, hc1z, hr1f⟩ := h1
                  subst hr1z hc1z hr1f
                  rw [hm1] at hc1
                  rw [hc1] at h
                  simp only [wsub_of_le limit 0 (Nat.zero_le limit), Nat.sub_zero] at h
                  cases hc2 : cuddBddXorReducedRecur fuel m (getN m f.id).e
                      (getN m f.id).e heu (DD_MIN_NODE_LIMIT limit) with
                  | none => rw [hc2] at h; exact Option.noConfusion h
                  | some v2 =>
                    obtain ⟨res2, m2, c2, r2⟩ := v2
                    have h2 := ih m (getN m f.id).e heu (DD_MIN_NODE_LIMIT limit)
                      res2 m2 c2 r2 hc2 hb hve hbfch.2
                    obtain ⟨hr2z, hm2, hc2z, hr2f⟩ := h2
                    subst hr2z hc2z hr2f
                    rw [hm2] at hc2
                    rw [hc2] at h
                    simp only [eq_self_iff_true, if_true, Option.some.injEq,
                      Prod.mk.injEq] at h
                    exact ⟨by rw [← h.1], h.2.1.symm, h.2.2.1.symm, h.2.2.2.symm⟩
              · simp only [if_neg hdec] at h
                cases hc1 : cuddBddXorReducedRecur fuel m (getN m f.id).e
                    (getN m f.id).e heu (DD_MIN_NODE_LIMIT limit) with
                | none => rw [hc1] at h; exact Option.noConfusion h
                | some v1 =>
                  obtain ⟨res1, m1, c1, r1⟩ := v1
                  have h1 := ih m (getN m f.id).e heu (DD_MIN_NODE_LIMIT limit)
                    res1 m1 c1 r1 hc1 hb hve hbfch.2
                  obtain ⟨hr1z, hm1, hc1z, hr1f⟩ := h1
                  subst hr1z hc1z hr1f
                  rw [hm1] at hc1
                  rw [hc1] at h
                  simp only [wsub_of_le limit 0 (Nat.zero_le limit), Nat.sub_zero] at h
                  cases hc2 : cuddBddXorReducedRecur fuel m (getN m f.id).t
                      (getN m f.id).t heu (DD_MIN_NODE_LIMIT limit) with
                  | none => rw [hc2] at h; exact Option.noConfusion h
                  | some v2 =>
                    obtain ⟨res2, m2, c2, r2⟩ := v2
                    have h2 := ih m (getN m f.id).t heu (DD_MIN_NODE_LIMIT limit)
                      res2 m2 c2 r2 hc2 hb hvt hbfch.1
                    obtain ⟨hr2z, hm2, hc2z, hr2f⟩ := h2
                    subst hr2z hc2z hr2f
                    rw [hm2] at hc2
                    rw [hc2] at h
                    simp only [eq_self_iff_true, if_true, Option.some.injEq,
                      Prod.mk.injEq] at h
                    exact ⟨by rw [← h.1], h.2.1.symm, h.2.2.1.symm, h.2.2.2.symm⟩
          | false =>
            simp only [hfc, Bool.false_eq_true, if_false] at h
            split at h
            · next h4 =>
              exact absurd h4 nh3
            · next nh4 =>
              have hco := xorCofactors_self m f hfc
              simp only [hco] at h
              by_cases hdec : heu m f (some f) none < 0
              · simp only [if_pos hdec] at h
                cases hc1 : cuddBddXorReducedRecur fuel m (getN m f.id).t
                    (getN m f.id).t heu (DD_MIN_NODE_LIMIT limit) with
                | none => rw [hc1] at h; exact Option.noConfusion h
                | some v1 =>
                  obtain ⟨res1, m1, c1, r1⟩ := v1
                  have h1 := ih m (getN m f.id).t heu (DD_MIN_NODE_LIMIT limit)
                    res1 m1 c1 r1 hc1 hb hvt hbfch.1
                  obtain ⟨hr1z, hm1, hc1z, hr1f⟩ := h1
                  subst hr1z hc1z hr1f
                  rw [hm1] at hc1
                  rw [hc1] at h
                  simp only [wsub_of_le limit 0 (Nat.zero_le limit), Nat.sub_zero] at h
                  cases hc2 : cuddBddXorReducedRecur fuel m (getN m f.id).e
                      (getN m f.id).e heu (DD_MIN_NODE_LIMIT limit) with
                  | none => rw [hc2] at h; exact Option.noConfusion h
                  | some v2 =>
                    obtain ⟨res2, m2, c2, r2⟩ := v2
                    have h2 := ih m (getN m f.id).e heu (DD_MIN_NODE_LIMIT limit)
                      res2 m2 c2 r2 hc2 hb hve hbfch.2
                    obtain ⟨hr2z, hm2, hc2z, hr2f⟩ := h2
                    subst hr2z hc2z hr2f
                    rw [hm2] at hc2
                    rw [hc2] at h
                    simp only [eq_self_iff_true, if_true, Option.some.injEq,
                      Prod.mk.injEq] at h
                    exact ⟨by rw [← h.1], h.2.1.symm, h.2.2.1.symm, h.2.2.2.symm⟩
              · simp only [if_neg hdec] at h
                cases hc1 : cuddBddXorReducedRecur fuel m (getN m f.id).e
                    (getN m f.id).e heu (DD_MIN_NODE_LIMIT limit) with
                | none => rw [hc1] at h; exact Option.noConfusion h
                | some v1 =>
                  obtain ⟨res1, m1, c1, r1⟩ := v1
                  have h1 := ih m (getN m f.id).e heu (DD_MIN_NODE_LIMIT limit)
                    res1 m1 c1 r1 hc1 hb hve hbfch.2
                  obtain ⟨hr1z, hm1, hc1z, hr1f⟩ := h1
                  subst hr1z hc1z hr1f
                  rw [hm1] at hc1
                  rw [hc1] at h
                  simp only [wsub_of_le limit 0 (Nat.zero_le limit), Nat.sub_zero] at h
                  cases hc2 : cuddBddXorReducedRecur fuel m (getN m f.id).t
                      (getN m f.id).t heu (DD_MIN_NODE_LIMIT limit) with
                  | none => rw [hc2] at h; exact Option.noConfusion h
                  | some v2 =>
                    obtain ⟨res2, m2, c2, r2⟩ := v2
                    have h2 := ih m (getN m f.id).t heu (DD_MIN_NODE_LIMIT limit)
                      res2 m2 c2 r2 hc2 hb hvt hbfch.1
                    obtain ⟨hr2z, hm2, hc2z, hr2f⟩ := h2
                    subst hr2z hc2z hr2f
                    rw [hm2] at hc2
                    rw [hc2] at h
                    simp only [eq_self_iff_true, if_true, Option.some.injEq,
                      Prod.mk.injEq] at h
                    exact ⟨by rw [← h.1], h.2.1.symm, h.2.2.1.symm, h.2.2.2.symm⟩

set_option maxHeartbeats 2000000 in
theorem xor_compl_one (fuel : Nat) :
    ∀ m f g heu limit res m' c red,
      cuddBddXorReducedRecur fuel m f g heu limit = some (res, m', c, red) →
      NodesB m.nodes → ValidE m f →
      botFreeN m.nodes f.id = true →
      f.id = g.id → f.c ≠ g.c →
      res = some oneE ∧ m' = m ∧ c = 0 ∧ red = false := by
  induction fuel with
  | zero =>
    intro m f g heu limit res m' c red h hb hv hbf hid hcne
    exact Option.noConfusion h
  | succ fuel ih =>
    intro m f g heu limit res m' c red h hb hv hbf hid hcne
    have hne1 := botFreeN_ne_one m.nodes f.id hbf
    obtain ⟨hpo, hfreg⟩ := pointerOrder_compl f g hid hcne
    simp only [cuddBddXorReducedRecur, hpo] at h
    split at h
    · next h1 =>
      exfalso
      rcases h1 with h1 | h1
      · have hcid := congrArg Edge.id h1
        simp [unkE] at hcid
        exact hne1 hcid
      · have hcid := congrArg Edge.id h1
        simp [unkE] at hcid
        rw [hid] at hne1
        exact hne1 hcid
    · next nh1 =>
      split at h
      · next h2 =>
        have hf0 : f.id = 0 := by
          have hcid := congrArg Edge.id h2
          simpa [zeroE] using hcid
        have hro : regularE f = oneE := by
          rw [edge_eq_iff]
          simp [regularE, oneE, hf0]
        obtain ⟨ha, hm, hc, hr⟩ := reduce_const fuel m (regularE f) heu limit
          res m' c red (Or.inl hro) h
        exact ⟨by rw [ha, hro], hm, hc, hr⟩
      · next nh2 =>
        split at h
        · next h3 =>
          exfalso
          have hcc := congrArg Edge.c h3
          simp [oneE] at hcc
        · next nh3 =>
          simp only [regularE_c, Bool.false_eq_true, if_false] at h
          split at h
          · next h4 =>
            exfalso
            apply nh2
            rw [h4]
            rfl
          · next nh4 =>
            have hfid2 : 2 ≤ f.id := by
              rcases Nat.lt_or_ge f.id 2 with hlt | hge
              · exfalso
                have hf0 : f.id = 0 := by omega
                exact nh4 (by rw [edge_eq_iff]; simp [regularE, oneE, hf0])
              · exact hge
            have hnd := getN_mem m f.id hfid2 hv
            have hchlt := hb (f.id - 2) (getN m f.id) hnd
            have hbfch : botFreeN m.nodes (getN m f.id).t.id = true ∧
                botFreeN m.nodes (getN m f.id).e.id = true := by
              have hbfn := botFreeN_node m.nodes f.id (getN m f.id) hfid2 hnd
                (by omega) (by omega)
              rw [hbfn] at hbf
              simp only [Bool.and_eq_true] at hbf
              exact hbf
            have hvt : ValidE m (getN m f.id).t := by
              have h1 := hchlt.1
              have h2 : f.id < m.nodes.length + 2 := hv
              simp only [ValidE]
              omega
            have hve : ValidE m (getN m f.id).e := by
              have h1 := hchlt.2
              have h2 : f.id < m.nodes.length + 2 := hv
              simp only [ValidE]
              omega
            have hco := xorCofactors_compl m (regularE f) (by simp)
              (by simpa using botFreeN_ne_one m.nodes _ hbfch.1)
              (by simpa using botFreeN_ne_one m.nodes _ hbfch.2)
            simp only [hco, regularE_id] at h
            by_cases hdec : heu m (regularE f) (some (notE (regularE f))) none < 0
            · simp only [if_pos hdec] at h
              cases hc1 : cuddBddXorReducedRecur fuel m (getN m f.id).t
                  (notE (getN m f.id).t) heu (DD_MIN_NODE_LIMIT limit) with
              | none => rw [hc1] at h; exact Option.noConfusion h
              | some v1 =>
                obtain ⟨res1, m1, c1, r1⟩ := v1
                have h1 := ih m (getN m f.id).t (notE (getN m f.id).t) heu
                  (DD_MIN_NODE_LIMIT limit) res1 m1 c1 r1 hc1 hb hvt hbfch.1
                  (by simp) (by cases hct : (getN m f.id).t.c <;> simp [hct])
                obtain ⟨hr1z, hm1, hc1z, hr1f⟩ := h1
                subst hr1z hc1z hr1f
                rw [hm1] at hc1
                rw [hc1] at h
                simp only [wsub_of_le limit 0 (Nat.zero_le limit), Nat.sub_zero] at h
                cases hc2 : cuddBddXorReducedRecur fuel m (getN m f.id).e
                    (notE (getN m f.id).e) heu (DD_MIN_NODE_LIMIT limit) with
                | none => rw [hc2] at h; exact Option.noConfusion h
                | some v2 =>
                  obtain ⟨res2, m2, c2, r2⟩ := v2
                  have h2 := ih m (getN m f.id).e (notE (getN m f.id).e) heu
                    (DD_MIN_NODE_LIMIT limit) res2 m2 c2 r2 hc2 hb hve hbfch.2
                    (by simp) (by cases hce : (getN m f.id).e.c <;> simp [hce])
                  obtain ⟨hr2z, hm2, hc2z, hr2f⟩ := h2
                  subst hr2z hc2z hr2f
                  rw [hm2] at hc2
                  rw [hc2] at h
                  simp only [eq_self_iff_true, if_true, Option.some.injEq,
                    Prod.mk.injEq] at h
                  exact ⟨by rw [← h.1], h.2.1.symm, h.2.2.1.symm, h.2.2.2.symm⟩
            · simp only [if_neg hdec] at h
              cases hc1 : cuddBddXorReducedRecur fuel m (getN m f.id).e
                  (notE (getN m f.id).e) heu (DD_MIN_NODE_LIMIT limit) with
              | none => rw [hc1] at h; exact Option.noConfusion h
              | some v1 =>
                obtain ⟨res1, m1, c1, r1⟩ := v1
                have h1 := ih m (getN m f.id).e (notE (getN m f.id).e) heu
                  (DD_MIN_NODE_LIMIT limit) res1 m1 c1 r1 hc1 hb hve hbfch.2
                  (by simp) (by cases hce : (getN m f.id).e.c <;> simp [hce])
                obtain ⟨hr1z, hm1, hc1z, hr1f⟩ := h1
                subst hr1z hc1z hr1f
                rw [hm1] at hc1
                rw [hc1] at h
                simp only [wsub_of_le limit 0 (Nat.zero_le limit), Nat.sub_zero] at h
                cases hc2 : cuddBddXorReducedRecur fuel m (getN m f.id).t
                    (notE (getN m f.id).t) heu (DD_MIN_NODE_LIMIT limit) with
                | none => rw [hc2] at h; exact Option.noConfusion h
                | some v2 =>
                  obtain ⟨res2, m2, c2, r2⟩ := v2
                  have h2 := ih m (getN m f.id).t (notE (getN m f.id).t) heu
                    (DD_MIN_NODE_LIMIT limit) res2 m2 c2 r2 hc2 hb hvt hbfch.1
                    (by simp) (by cases hct : (getN m f.id).t.c <;> simp [hct])
                  obtain ⟨hr2z, hm2, hc2z, hr2f⟩ := h2
                  subst hr2z hc2z hr2f
                  rw [hm2] at hc2
                  rw [hc2] at h
                  simp only [eq_self_iff_true, if_true, Option.some.injEq,
                    Prod.mk.injEq] at h
                  exact ⟨by rw [← h.1], h.2.1.symm, h.2.2.1.symm, h.2.2.2.symm⟩

/-- Claim C6 (amended): on operands whose diagram does not reach `⊥`,
`Cudd_bddXorReduced` maps the pair `(f, f)` to the constant `0` and a
complementary pair `(f, g)` — the same node with opposite polarity —
to the constant `1`, leaving the manager unchanged and billing no
node.  Both results are produced by full recursion down to the leaves:
the source has no `x ⊕ x` or `x ⊕ ¬x` terminal rule, and on diagrams
that do reach `⊥` neither result is a constant (see
`xorReduced_self_not_constant`). -/
theorem xorReduced_self_compl_constant (fuel : Nat) (m : Mgr) (f g : Edge)
    (heu : Heu) (limit : Nat)
    (res1 res2 : Option Edge) (m1 m2 : Mgr) (c1 c2 : Nat) (r1 r2 : Bool)
    (h1 : Cudd_bddXorReduced fuel m f f heu limit = some (res1, m1, c1, r1))
    (h2 : Cudd_bddXorReduced fuel m f g heu limit = some (res2, m2, c2, r2))
    (hb : NodesB m.nodes) (hv : ValidE m f)
    (hbf : botFreeN m.nodes f.id = true)
    (hid : f.id = g.id) (hcne : f.c ≠ g.c) :
    (res1 = some zeroE ∧ m1 = m ∧ c1 = 0 ∧ r1 = false) ∧
      (res2 = some oneE ∧ m2 = m ∧ c2 = 0 ∧ r2 = false) := by
  constructor
  · unfold Cudd_bddXorReduced at h1
    cases hr : cuddBddXorReducedRecur fuel m f f heu limit with
    | none => rw [hr] at h1; exact Option.noConfusion h1
    | some v =>
      obtain ⟨ra, ma, ca, rda⟩ := v
      obtain ⟨ha1, ha2, ha3, ha4⟩ := xor_self_zero fuel m f heu limit ra ma
        ca rda hr hb hv hbf
      subst ha1 ha3 ha4
      rw [ha2] at hr
      rw [hr] at h1
      have hcl : clearMaxref m.nodes (m.flags.length + 1) m.flags zeroE =
          m.flags := by
        rw [clearMaxref]
        simp [zeroE]
      simp only [hcl] at h1
      simp only [Option.some.injEq, Prod.mk.injEq] at h1
      exact ⟨h1.1.symm, h1.2.1.symm, h1.2.2.1.symm, h1.2.2.2.symm⟩
  · unfold Cudd_bddXorReduced at h2
    cases hr : cuddBddXorReducedRecur fuel m f g heu limit with
    | none => rw [hr] at h2; exact Option.noConfusion h2
    | some v =>
      obtain ⟨ra, ma, ca, rda⟩ := v
      obtain ⟨ha1, ha2, ha3, ha4⟩ := xor_compl_one fuel m f g heu limit ra ma
        ca rda hr hb hv hbf hid hcne
      subst ha1 ha3 ha4
      rw [ha2] at hr
      rw [hr] at h2
      have hcl : clearMaxref m.nodes (m.flags.length + 1) m.flags oneE =
          m.flags := by
        rw [clearMaxref]
        simp [oneE]
      simp only [hcl] at h2
      simp only [Option.some.injEq, Prod.mk.injEq] at h2
      exact ⟨h2.1.symm, h2.2.1.symm, h2.2.2.1.symm, h2.2.2.2.symm⟩

theorem xorReduced_self_compl_constant_witness :
    (some zeroE = some zeroE ∧ mgrA = mgrA ∧ 0 = 0 ∧ false = false) ∧
      (some oneE = some oneE ∧ mgrA = mgrA ∧ 0 = 0 ∧ false = false) :=
  xorReduced_self_compl_constant 5 mgrA ⟨3, false⟩ ⟨3, true⟩ heuThen 100
    (some zeroE) (some oneE) mgrA mgrA 0 0 false false rfl rfl
    (NodesB_of_check mgrA.nodes (by decide))
    (by decide : (3 : Nat) < mgrA.nodes.length + 2)
    (botFreeN_of_chk mgrA.nodes 5 3 (by decide))
    rfl (by decide)
